import Mathlib

/-!
# Ray tracer: the radiance estimator, the Schlick reflectance and the render driver

A shallow embedding of `src/main.cpp` (`ray_color`, `main`) and of
`src/material.hpp` (`schlick`).

Conventions of the embedding.

* A `double` is a rational number and the constant `infinity` is the top element
  added to the rationals.  The arithmetic of colours in `ray_color` and of
  `schlick` is exact: rounding is not modelled there.  The sample coordinates
  `u` and `v` of `main` are rounded as the machine rounds them, with
  `round_double` (IEEE 754 binary64, round to nearest, ties to even).
* An `int` is an `Int` between `-2^31` and `2^31 - 1`.  For such values
  `depth - 1` (computed for `depth > 0`), `++i` (for `i < image_width`), `++s`
  (for `s < samples_per_pixel`) and `--j` (for `j >= 0`) stay in range.  The one
  operation that can leave the range is `image_height - 1`, which is wrapped
  with `wrap_int`.
* The global random generator behind `random_double()` is mutable state.  It is
  passed explicitly: every operation that may draw random numbers takes a state
  of type `σ` and returns the new one.
* Virtual dispatch (`hittable::hit`, `material::scatter`) is a record of
  functions.  `M` is the type of the material objects `mat_ptr` points to.
-/

namespace RayTracing

/-! ## Value types (headers that are not part of the sources) -/

/-- Modelled from the spec: `vec3` of `vec3.hpp`, a 3-component vector, point or
colour. -/
structure vec3 where
  x : ℚ
  y : ℚ
  z : ℚ
deriving DecidableEq

/-- Modelled from the spec: `vec3 + vec3` of `vec3.hpp`, component-wise addition. -/
instance : Add vec3 := ⟨fun a b => ⟨a.x + b.x, a.y + b.y, a.z + b.z⟩⟩

/-- Modelled from the spec: `vec3 * vec3` of `vec3.hpp`, the component-wise product. -/
instance : Mul vec3 := ⟨fun a b => ⟨a.x * b.x, a.y * b.y, a.z * b.z⟩⟩

/-- Modelled from the spec: `double * vec3` of `vec3.hpp`, scaling. -/
instance : HMul ℚ vec3 vec3 := ⟨fun t a => ⟨t * a.x, t * a.y, t * a.z⟩⟩

/-- Modelled from the spec: `ray` of `ray.hpp`, origin, direction and time. -/
structure ray where
  orig : vec3
  dir : vec3
  tm : ℚ
deriving DecidableEq

/-- Modelled from the spec: the accessor `ray::direction()` of `ray.hpp`. -/
def ray.direction (r : ray) : vec3 := r.dir

/-- Modelled from the spec: `hit_record` of `hittable.hpp`: hit point, normal,
parametric distance, face orientation flag and the material of the primitive. -/
structure hit_record (M : Type) where
  p : vec3
  normal : vec3
  t : ℚ
  front_face : Bool
  mat_ptr : M

/-- Modelled from the spec: the constant `infinity` of `common.hpp`. -/
def infinity : WithTop ℚ := ⊤

/-- Modelled from the spec: the abstract class `hittable` of `hittable.hpp`.
`hit r t_min t_max` answers `some rec` where the C++ method returns `true` and
fills `rec`, and `none` where it returns `false`. -/
structure hittable (σ M : Type) where
  hit : ray → ℚ → WithTop ℚ → σ → Option (hit_record M) × σ

/-- Modelled from the spec: the library the program is linked against.
`scatter m` is the virtual method `material::scatter` of the object `m`
(declared in `material.hpp`, implemented by the material classes): `some
(attenuation, scattered)` where the C++ method returns `true` and fills its two
output parameters, `none` where it returns `false`.  `unit_vector` is the
normalisation of `vec3.hpp` and `random_double` the generator of `common.hpp`. -/
structure library (σ M : Type) where
  scatter : M → ray → hit_record M → σ → Option (vec3 × ray) × σ
  unit_vector : vec3 → vec3
  random_double : σ → ℚ × σ

/-- Modelled from the spec: the class `camera` of `camera.hpp`; `get_ray` draws
the lens offset and the shutter time from the random generator. -/
structure camera (σ : Type) where
  get_ray : ℚ → ℚ → σ → ray × σ

/-! ## `src/main.cpp`: `ray_color` -/

/-- The function `ray_color` of `main.cpp`. -/
def ray_color {σ M : Type} (L : library σ M) (r : ray) (world : hittable σ M)
    (depth : Int) (s : σ) : vec3 × σ :=
  if _h : depth ≤ 0 then
    (⟨0, 0, 0⟩, s)
  else
    match world.hit r 0.001 infinity s with
    | (some rec, s1) =>
      match L.scatter rec.mat_ptr r rec s1 with
      | (some (attenuation, scattered), s2) =>
        let res := ray_color L scattered world (depth - 1) s2
        (attenuation * res.1, res.2)
      | (none, s2) => (⟨0, 0, 0⟩, s2)
    | (none, s1) =>
      let unit_direction := L.unit_vector r.direction
      let t := 0.5 * (unit_direction.y + 1.0)
      ((1.0 - t) * (⟨1.0, 1.0, 1.0⟩ : vec3) + t * (⟨0.5, 0.7, 1.0⟩ : vec3), s1)
termination_by depth.toNat
decreasing_by omega

/-! ## `src/material.hpp`: `schlick` -/

/-- The function `schlick` of `material.hpp`; `pow(x, 5)` is the fifth power. -/
def schlick (cosine ref_idx : ℚ) : ℚ :=
  let r0 := (1 - ref_idx) / (1 + ref_idx)
  let r0 := r0 * r0
  r0 + (1 - r0) * (1 - cosine) ^ 5

/-! ## Machine arithmetic -/

/-- The value of an `int` expression whose exact value is `x`: 32-bit two's
complement, so `x` modulo `2^32` in the range from `-2^31` to `2^31 - 1`. -/
def wrap_int (x : Int) : Int := (x + 2147483648) % 4294967296 - 2147483648

/-- Rounding to the nearest integer, ties to the even one. -/
def round_half_even (a : ℚ) : Int :=
  if a - ⌊a⌋ < 1 / 2 then ⌊a⌋
  else if 1 / 2 < a - ⌊a⌋ then ⌊a⌋ + 1
  else if ⌊a⌋ % 2 = 0 then ⌊a⌋
  else ⌊a⌋ + 1

/-- The spacing of the doubles around a positive `x`: `2^(e - 52)` for `x` in
`[2^e, 2^(e+1))`, and the spacing `2^(-1074)` of the subnormal doubles below
`2^(-1022)`. -/
def double_ulp (x : ℚ) : ℚ := (2 : ℚ) ^ (max (Int.log 2 x) (-1022) - 52)

/-- The double that an arithmetic operation with the exact result `x` returns:
the multiple of the spacing nearest to `x`, ties to the even one (IEEE 754
binary64 in the default rounding mode).  Overflow to infinity, for results of
`2^1024` and beyond, is left out. -/
def round_double (x : ℚ) : ℚ :=
  if 0 < x then (round_half_even (x / double_ulp x) : ℚ) * double_ulp x
  else if x < 0 then -((round_half_even (-x / double_ulp (-x)) : ℚ) * double_ulp (-x))
  else 0

/-! ## `src/main.cpp`: `main` -/

/-- The four constants at the head of `main`. -/
structure config where
  image_width : Int
  image_height : Int
  samples_per_pixel : Int
  max_depth : Int

/-- What `main` sends to `std::cout`: the header `P3 / width height / 255`, then
one item per call of `write_color(std::cout, samples_per_pixel)`.  A
`write_color` item carries the colour the call is made on and, as a tag, the
loop indices `i` and `j` of the pixel it is made for. -/
inductive output where
  | header (image_width image_height : Int)
  | write_color (i j : Int) (color : vec3) (samples_per_pixel : Int)
deriving DecidableEq

/-- The body of the innermost loop of `main` for the pixel `(i, j)`, up to the
accumulation: the sample coordinates `u` and `v`, the camera ray through them and
its colour.  In `(i + random_double()) / image_width` the two `int` are converted
to `double`, which is exact, and the sum and the quotient are each rounded. -/
def sample {σ M : Type} (cfg : config) (L : library σ M) (cam : camera σ)
    (world : hittable σ M) (i j : Int) (st : σ) : vec3 × σ :=
  let rd1 := L.random_double st
  let u := round_double (round_double ((i : ℚ) + rd1.1) / (cfg.image_width : ℚ))
  let rd2 := L.random_double rd1.2
  let v := round_double (round_double ((j : ℚ) + rd2.1) / (cfg.image_height : ℚ))
  let r := cam.get_ray u v rd2.2
  ray_color L r.1 world cfg.max_depth r.2

/-- The innermost loop of `main`,
`for (int s = 0; s < samples_per_pixel; ++s)`, entered at `s` with the
accumulator `color`: each pass is `color += ray_color(r, world, max_depth)` for
a fresh sample. -/
def sample_loop {σ M : Type} (cfg : config) (L : library σ M) (cam : camera σ)
    (world : hittable σ M) (i j : Int) (s : Int) (color : vec3) (st : σ) : vec3 × σ :=
  if _h : s < cfg.samples_per_pixel then
    let c := sample cfg L cam world i j st
    sample_loop cfg L cam world i j (s + 1) (color + c.1) c.2
  else
    (color, st)
termination_by (cfg.samples_per_pixel - s).toNat
decreasing_by omega

/-- The middle loop of `main`, `for (int i = 0; i < image_width; ++i)`, entered
at `i`; `out` is what has been written to `std::cout` so far. -/
def column_loop {σ M : Type} (cfg : config) (L : library σ M) (cam : camera σ)
    (world : hittable σ M) (j : Int) (i : Int) (out : List output) (st : σ) :
    List output × σ :=
  if _h : i < cfg.image_width then
    let px := sample_loop cfg L cam world i j 0 ⟨0, 0, 0⟩ st
    column_loop cfg L cam world j (i + 1)
      (out ++ [output.write_color i j px.1 cfg.samples_per_pixel]) px.2
  else
    (out, st)
termination_by (cfg.image_width - i).toNat
decreasing_by omega

/-- The outer loop of `main`, `for (int j = image_height - 1; j >= 0; --j)`,
entered at `j`.  The progress line on `std::cerr` is not part of the output. -/
def row_loop {σ M : Type} (cfg : config) (L : library σ M) (cam : camera σ)
    (world : hittable σ M) (j : Int) (out : List output) (st : σ) : List output × σ :=
  if _h : j ≥ 0 then
    let row := column_loop cfg L cam world j 0 out st
    row_loop cfg L cam world (j - 1) row.1 row.2
  else
    (out, st)
termination_by (j + 1).toNat
decreasing_by omega

/-- The body of `main` with its four constants as a parameter.  The scene
`world` and the camera `cam` are built by classes that are not part of the
sources and are parameters as well; `st` is the state of the random generator
when the loops are entered.  The row loop is entered at the `int` value of
`image_height - 1`. -/
def render {σ M : Type} (cfg : config) (L : library σ M) (cam : camera σ)
    (world : hittable σ M) (st : σ) : List output × σ :=
  row_loop cfg L cam world (wrap_int (cfg.image_height - 1))
    [output.header cfg.image_width cfg.image_height] st

/-- The constants of `main`: `image_width`, `image_height`, `samples_per_pixel`,
`max_depth`. -/
def main_config : config := ⟨800, 400, 100, 50⟩

/-- The function `main` of `main.cpp`. -/
def main {σ M : Type} (L : library σ M) (cam : camera σ) (world : hittable σ M)
    (st : σ) : List output × σ :=
  render main_config L cam world st

/-! ## Observing the calls a run makes -/

/-- A call to one of the external operations. -/
inductive event where
  | hit (r : ray) (t_min : ℚ) (t_max : WithTop ℚ)
  | scatter (r : ray)
  | get_ray (u v : ℚ)
  | random_double (x : ℚ)
deriving DecidableEq

/-- The hit events. -/
def event.is_hit : event → Bool
  | event.hit _ _ _ => true
  | _ => false

/-- The scatter events. -/
def event.is_scatter : event → Bool
  | event.scatter _ => true
  | _ => false

/-- The scene `world`, recording each call of `hit` in a log carried next to the
state. -/
def spy_world {σ M : Type} (world : hittable σ M) : hittable (σ × List event) M where
  hit r t_min t_max st :=
    ((world.hit r t_min t_max st.1).1,
      ((world.hit r t_min t_max st.1).2, st.2 ++ [event.hit r t_min t_max]))

/-- The library `L`, recording each call of `scatter` and of `random_double`. -/
def spy_library {σ M : Type} (L : library σ M) : library (σ × List event) M where
  scatter m r rec st :=
    ((L.scatter m r rec st.1).1, ((L.scatter m r rec st.1).2, st.2 ++ [event.scatter r]))
  unit_vector := L.unit_vector
  random_double st :=
    ((L.random_double st.1).1,
      ((L.random_double st.1).2, st.2 ++ [event.random_double (L.random_double st.1).1]))

/-- The camera `cam`, recording each call of `get_ray` with its arguments. -/
def spy_camera {σ : Type} (cam : camera σ) : camera (σ × List event) where
  get_ray u v st :=
    ((cam.get_ray u v st.1).1, ((cam.get_ray u v st.1).2, st.2 ++ [event.get_ray u v]))

/-- A colour whose three components lie in `[0, 1]`. -/
def vec3.in_unit_range (c : vec3) : Prop :=
  (0 ≤ c.x ∧ c.x ≤ 1) ∧ (0 ≤ c.y ∧ c.y ≤ 1) ∧ (0 ≤ c.z ∧ c.z ≤ 1)

/-- The coordinates a `write_color` item is tagged with; none for the header. -/
def output.pixel : output → Option (Int × Int)
  | output.header _ _ => none
  | output.write_color i j _ _ => some (i, j)

/-- The colours of `n` successive samples of the pixel `(i, j)` drawn from the
state `st` on, in the order they are drawn, and the state after the last. -/
def pixel_samples {σ M : Type} (cfg : config) (L : library σ M) (cam : camera σ)
    (world : hittable σ M) (i j : Int) : Nat → σ → List vec3 × σ
  | 0, st => ([], st)
  | n + 1, st =>
    let c := sample cfg L cam world i j st
    let rest := pixel_samples cfg L cam world i j n c.2
    (c.1 :: rest.1, rest.2)

/-- The pixels of an image of the given width and height in scan order: the rows
from the last one down to row 0, and each row from column 0 upwards. -/
def scan_order (image_width image_height : Nat) : List (Int × Int) :=
  (List.range image_height).reverse.flatMap
    (fun (j : Nat) => (List.range image_width).map (fun (i : Nat) => ((i : Int), (j : Int))))

/-- The pixels of the rows `n - 1` down to 0 of an image of the given width, each
row from column 0 upwards. -/
def scan_rows (image_width : Nat) : Nat → List (Int × Int)
  | 0 => []
  | n + 1 =>
    (List.range image_width).map (fun (i : Nat) => ((i : Int), (n : Int)))
      ++ scan_rows image_width n

/-! ## A small scene

A floor in the plane `y = 0`, seen from above; the half `x ≥ 0` of the floor is a
grey mirror (the material `true`), the other half absorbs (the material `false`).
The state of the random generator is the number of draws made so far. -/

/-- A normalisation that is exact where the length of the vector is rational and
not zero, and answers the vertical unit vector elsewhere. -/
def demo_unit_vector (v : vec3) : vec3 :=
  let l := Rat.sqrt (v.x * v.x + v.y * v.y + v.z * v.z)
  if l * l = v.x * v.x + v.y * v.y + v.z * v.z ∧ l ≠ 0 then
    ⟨v.x / l, v.y / l, v.z / l⟩
  else
    ⟨0, 1, 0⟩

/-- The materials of the floor, and a generator that cycles through 0, 1/4, 1/2, 3/4. -/
def demo_library : library Nat Bool where
  scatter m r rec s :=
    if m = true then
      (some (⟨1 / 2, 1 / 2, 1 / 2⟩, ⟨rec.p, ⟨r.dir.x, -r.dir.y, r.dir.z⟩, r.tm⟩), s)
    else
      (none, s)
  unit_vector := demo_unit_vector
  random_double s := (((s % 4 : Nat) : ℚ) / 4, s + 1)

/-- The floor: a ray hits it when it starts above the floor and points downwards. -/
def demo_world : hittable Nat Bool where
  hit r t_min t_max s :=
    if 0 < r.orig.y ∧ r.dir.y < 0 ∧ t_min < r.orig.y / (-r.dir.y)
        ∧ ((r.orig.y / (-r.dir.y) : ℚ) : WithTop ℚ) < t_max then
      (some ⟨⟨r.orig.x + r.orig.y / (-r.dir.y) * r.dir.x, 0,
              r.orig.z + r.orig.y / (-r.dir.y) * r.dir.z⟩,
            ⟨0, 1, 0⟩, r.orig.y / (-r.dir.y), true, decide (0 ≤ r.orig.x)⟩, s)
    else
      (none, s)

/-- A pinhole camera at height 1 above the floor, looking along the negative
`z` axis. -/
def demo_camera : camera Nat where
  get_ray u v s := (⟨⟨0, 1, 0⟩, ⟨2 * u - 1, 2 * v - 1, -1⟩, 0⟩, s)

/-- A ray from above the mirror half of the floor, straight down. -/
def demo_ray_down : ray := ⟨⟨0, 1, 0⟩, ⟨0, -1, 0⟩, 0⟩

/-- A ray from above the absorbing half of the floor, straight down. -/
def demo_ray_absorbed : ray := ⟨⟨-1, 1, 0⟩, ⟨0, -1, 0⟩, 0⟩

/-- A ray from below the floor, straight down: it misses the floor. -/
def demo_ray_below : ray := ⟨⟨0, -1, 0⟩, ⟨0, -1, 0⟩, 0⟩

/-- A ray from the floor, straight up: it misses the floor. -/
def demo_ray_up : ray := ⟨⟨0, 0, 0⟩, ⟨0, 1, 0⟩, 0⟩

/-- The materials of the floor with a generator that always draws `1 - 2^(-53)`,
the largest double below 1. -/
def edge_library : library Nat Bool where
  scatter := demo_library.scatter
  unit_vector := demo_unit_vector
  random_double s := (1 - 1 / 2 ^ 53, s + 1)

/-! ## Arithmetic of `vec3` -/

theorem vec3.add_def (a b : vec3) : a + b = ⟨a.x + b.x, a.y + b.y, a.z + b.z⟩ := rfl

theorem vec3.mul_def (a b : vec3) : a * b = ⟨a.x * b.x, a.y * b.y, a.z * b.z⟩ := rfl

theorem vec3.scale_def (t : ℚ) (a : vec3) : t * a = ⟨t * a.x, t * a.y, t * a.z⟩ := rfl

/-! ## Rounding to `double` -/

theorem floor_le_round_half_even (a : ℚ) : ⌊a⌋ ≤ round_half_even a := by
  unfold round_half_even
  split_ifs <;> omega

theorem round_half_even_le_floor_add_one (a : ℚ) : round_half_even a ≤ ⌊a⌋ + 1 := by
  unfold round_half_even
  split_ifs <;> omega

theorem round_half_even_intCast (n : Int) : round_half_even (n : ℚ) = n := by
  unfold round_half_even
  simp

/-- A rational within less than 1/2 of an integer rounds to that integer. -/
theorem round_half_even_of_near (a : ℚ) (n : Int) (h1 : (n : ℚ) - 1 / 2 < a)
    (h2 : a < (n : ℚ) + 1 / 2) : round_half_even a = n := by
  by_cases hge : (n : ℚ) ≤ a
  · have hf : ⌊a⌋ = n := Int.floor_eq_iff.mpr ⟨hge, by linarith⟩
    unfold round_half_even
    rw [hf, if_pos (by linarith)]
  · have hlt : a < (n : ℚ) := not_le.mp hge
    have hf : ⌊a⌋ = n - 1 := Int.floor_eq_iff.mpr ⟨by push_cast; linarith, by push_cast; linarith⟩
    unfold round_half_even
    rw [hf, if_neg (by push_cast; linarith), if_pos (by push_cast; linarith)]
    ring

theorem round_half_even_mono (a b : ℚ) (h : a ≤ b) : round_half_even a ≤ round_half_even b := by
  have hfl : ⌊a⌋ ≤ ⌊b⌋ := Int.floor_mono h
  rcases lt_or_eq_of_le hfl with hlt | heq
  · calc round_half_even a ≤ ⌊a⌋ + 1 := round_half_even_le_floor_add_one a
      _ ≤ ⌊b⌋ := hlt
      _ ≤ round_half_even b := floor_le_round_half_even b
  · unfold round_half_even
    rw [← heq]
    have hab : a - ⌊a⌋ ≤ b - ⌊a⌋ := by linarith
    split_ifs <;> first | omega | (exfalso; linarith)

theorem double_ulp_pos (x : ℚ) : 0 < double_ulp x := by
  unfold double_ulp
  positivity

theorem round_double_zero : round_double 0 = 0 := by
  simp [round_double]

theorem round_double_of_pos (x : ℚ) (hx : 0 < x) :
    round_double x = (round_half_even (x / double_ulp x) : ℚ) * double_ulp x := by
  simp [round_double, hx]

theorem round_double_nonneg (x : ℚ) (hx : 0 ≤ x) : 0 ≤ round_double x := by
  rcases lt_or_eq_of_le hx with hpos | h0
  · rw [round_double_of_pos x hpos]
    have h : (0 : Int) ≤ round_half_even (x / double_ulp x) := by
      have := round_half_even_mono 0 (x / double_ulp x)
        (div_nonneg hx (double_ulp_pos x).le)
      rwa [show (0 : ℚ) = ((0 : Int) : ℚ) by simp, round_half_even_intCast] at this
    exact mul_nonneg (by exact_mod_cast h) (double_ulp_pos x).le
  · rw [← h0, round_double_zero]

theorem two_pow_53_mul (e : Int) :
    (((2 : Int) ^ 53 : Int) : ℚ) * (2 : ℚ) ^ (e - 52) = (2 : ℚ) ^ (e + 1) := by
  have h : (((2 : Int) ^ 53 : Int) : ℚ) = (2 : ℚ) ^ (53 : Int) := by norm_num
  rw [h, ← zpow_add₀ (by norm_num)]
  congr 1
  ring

theorem two_pow_52_mul (e : Int) :
    (((2 : Int) ^ 52 : Int) : ℚ) * (2 : ℚ) ^ (e - 52) = (2 : ℚ) ^ e := by
  have h : (((2 : Int) ^ 52 : Int) : ℚ) = (2 : ℚ) ^ (52 : Int) := by norm_num
  rw [h, ← zpow_add₀ (by norm_num)]
  congr 1
  ring

/-- The rounding of a positive `x` does not exceed the upper end of its binade. -/
theorem round_double_le_binade (x : ℚ) (hx : 0 < x) :
    round_double x ≤ (2 : ℚ) ^ (max (Int.log 2 x) (-1022) + 1) := by
  rw [round_double_of_pos x hx]
  have hu := double_ulp_pos x
  have hlt : x < (2 : ℚ) ^ (max (Int.log 2 x) (-1022) + 1) := by
    have h1 : x < ((2 : ℕ) : ℚ) ^ (Int.log 2 x + 1) := Int.lt_zpow_succ_log_self (by norm_num) x
    refine lt_of_lt_of_le h1 ?_
    push_cast
    exact zpow_le_zpow_right₀ (by norm_num) (by omega)
  have hq : x / double_ulp x ≤ (((2 : Int) ^ 53 : Int) : ℚ) := by
    rw [div_le_iff₀ hu]
    have : (((2 : Int) ^ 53 : Int) : ℚ) * double_ulp x
        = (2 : ℚ) ^ (max (Int.log 2 x) (-1022) + 1) := by
      unfold double_ulp
      exact two_pow_53_mul _
    rw [this]
    exact hlt.le
  have hr := round_half_even_mono _ _ hq
  rw [round_half_even_intCast] at hr
  have hr' : (round_half_even (x / double_ulp x) : ℚ) ≤ (((2 : Int) ^ 53 : Int) : ℚ) := by
    exact_mod_cast hr
  calc (round_half_even (x / double_ulp x) : ℚ) * double_ulp x
      ≤ (((2 : Int) ^ 53 : Int) : ℚ) * double_ulp x := mul_le_mul_of_nonneg_right hr' hu.le
    _ = (2 : ℚ) ^ (max (Int.log 2 x) (-1022) + 1) := by
      unfold double_ulp
      exact two_pow_53_mul _

/-- The rounding of a positive normal `x` is not below the lower end of its binade. -/
theorem binade_le_round_double (x : ℚ) (hx : 0 < x) (hn : -1022 ≤ Int.log 2 x) :
    (2 : ℚ) ^ (Int.log 2 x) ≤ round_double x := by
  rw [round_double_of_pos x hx]
  have hu := double_ulp_pos x
  have hmax : max (Int.log 2 x) (-1022) = Int.log 2 x := max_eq_left hn
  have hle : (2 : ℚ) ^ (Int.log 2 x) ≤ x := by
    have := Int.zpow_log_le_self (b := 2) (by norm_num) hx
    exact_mod_cast this
  have hpow : (((2 : Int) ^ 52 : Int) : ℚ) * double_ulp x = (2 : ℚ) ^ (Int.log 2 x) := by
    unfold double_ulp
    rw [hmax]
    exact two_pow_52_mul _
  have hq : (((2 : Int) ^ 52 : Int) : ℚ) ≤ x / double_ulp x := by
    rw [le_div_iff₀ hu, hpow]
    exact hle
  have hr := round_half_even_mono _ _ hq
  rw [round_half_even_intCast] at hr
  have hr' : (((2 : Int) ^ 52 : Int) : ℚ) ≤ (round_half_even (x / double_ulp x) : ℚ) := by
    exact_mod_cast hr
  calc (2 : ℚ) ^ (Int.log 2 x) = (((2 : Int) ^ 52 : Int) : ℚ) * double_ulp x := hpow.symm
    _ ≤ (round_half_even (x / double_ulp x) : ℚ) * double_ulp x :=
      mul_le_mul_of_nonneg_right hr' hu.le

/-- Rounding is monotone on the non-negative rationals. -/
theorem round_double_mono (x y : ℚ) (hx : 0 ≤ x) (hxy : x ≤ y) :
    round_double x ≤ round_double y := by
  rcases lt_or_eq_of_le hx with hpos | h0
  · have hy : 0 < y := lt_of_lt_of_le hpos hxy
    have hlog : Int.log 2 x ≤ Int.log 2 y := Int.log_mono_right hpos hxy
    have hE : max (Int.log 2 x) (-1022) ≤ max (Int.log 2 y) (-1022) :=
      max_le_max hlog le_rfl
    rcases lt_or_eq_of_le hE with hlt | heq
    · have hn : -1022 ≤ Int.log 2 y := by omega
      have hEy : max (Int.log 2 y) (-1022) = Int.log 2 y := max_eq_left hn
      calc round_double x ≤ (2 : ℚ) ^ (max (Int.log 2 x) (-1022) + 1) :=
            round_double_le_binade x hpos
        _ ≤ (2 : ℚ) ^ (Int.log 2 y) := zpow_le_zpow_right₀ (by norm_num) (by omega)
        _ ≤ round_double y := binade_le_round_double y hy hn
    · have hu : double_ulp x = double_ulp y := by
        unfold double_ulp
        rw [heq]
      rw [round_double_of_pos x hpos, round_double_of_pos y hy, hu]
      have hq : x / double_ulp y ≤ y / double_ulp y :=
        div_le_div_of_nonneg_right hxy (double_ulp_pos y).le
      have hr := round_half_even_mono _ _ hq
      exact mul_le_mul_of_nonneg_right (by exact_mod_cast hr) (double_ulp_pos y).le
  · rw [← h0, round_double_zero]
    exact round_double_nonneg y (by linarith)

/-- A natural number below `2 ^ 53` is a double. -/
theorem round_double_natCast (n : Nat) (hn : n < 2 ^ 53) : round_double (n : ℚ) = n := by
  rcases Nat.eq_zero_or_pos n with h0 | hpos
  · subst h0
    simp [round_double_zero]
  · have hx : (0 : ℚ) < (n : ℚ) := by exact_mod_cast hpos
    rw [round_double_of_pos _ hx]
    have hlog : Int.log 2 (n : ℚ) = (Nat.log 2 n : Int) := Int.log_natCast 2 n
    have hle : Nat.log 2 n < 53 := by
      apply Nat.log_lt_of_lt_pow (by omega) hn
    have hulp : double_ulp (n : ℚ) = ((2 : ℚ) ^ (52 - Nat.log 2 n : Nat))⁻¹ := by
      unfold double_ulp
      rw [hlog, max_eq_left (by omega), ← zpow_natCast, ← zpow_neg]
      congr 1
      omega
    rw [hulp, div_inv_eq_mul]
    have hint : (n : ℚ) * (2 : ℚ) ^ (52 - Nat.log 2 n : Nat)
        = (((n * 2 ^ (52 - Nat.log 2 n) : Nat) : Int) : ℚ) := by
      push_cast
      ring
    rw [hint, round_half_even_intCast]
    push_cast
    field_simp

theorem log_two_eq (x : ℚ) (e : Int) (hx : 0 < x) (h1 : (2 : ℚ) ^ e ≤ x)
    (h2 : x < (2 : ℚ) ^ (e + 1)) : Int.log 2 x = e := by
  have ha : e ≤ Int.log 2 x :=
    (Int.zpow_le_iff_le_log (b := 2) (by norm_num) hx).mp (by exact_mod_cast h1)
  have hb : Int.log 2 x < e + 1 :=
    (Int.lt_zpow_iff_log_lt (b := 2) (by norm_num) hx).mp (by exact_mod_cast h2)
  omega

/-- The rounding of a positive normal `x` that lies in the binade of `2 ^ e` and
within less than half a spacing of the multiple `n` of the spacing. -/
theorem round_double_of_near (x : ℚ) (e n : Int) (hx : 0 < x) (he : -1022 ≤ e)
    (h1 : (2 : ℚ) ^ e ≤ x) (h2 : x < (2 : ℚ) ^ (e + 1))
    (h3 : (n : ℚ) - 1 / 2 < x / (2 : ℚ) ^ (e - 52))
    (h4 : x / (2 : ℚ) ^ (e - 52) < (n : ℚ) + 1 / 2) :
    round_double x = (n : ℚ) * (2 : ℚ) ^ (e - 52) := by
  have hlog := log_two_eq x e hx h1 h2
  have hulp : double_ulp x = (2 : ℚ) ^ (e - 52) := by
    unfold double_ulp
    rw [hlog, max_eq_left he]
  rw [round_double_of_pos x hx, hulp, round_half_even_of_near _ n h3 h4]

/-- The sum `399 + (1 - 2^(-53))` rounds up to 400. -/
theorem round_double_399 : round_double (399 + (1 - 1 / 2 ^ 53)) = 400 := by
  rw [round_double_of_near (399 + (1 - 1 / 2 ^ 53)) 8 7036874417766400
    (by norm_num) (by norm_num) (by norm_num) (by norm_num) (by norm_num) (by norm_num)]
  norm_num

/-- The sum `799 + (1 - 2^(-53))` rounds up to 800. -/
theorem round_double_799 : round_double (799 + (1 - 1 / 2 ^ 53)) = 800 := by
  rw [round_double_of_near (799 + (1 - 1 / 2 ^ 53)) 9 7036874417766400
    (by norm_num) (by norm_num) (by norm_num) (by norm_num) (by norm_num) (by norm_num)]
  norm_num

theorem round_double_one : round_double 1 = 1 := by
  have h := round_double_natCast 1 (by norm_num)
  simpa using h

/-- A sample coordinate lies in `[0, 1]`: for a pixel index `0 ≤ k < n` and a draw
`x` in `[0, 1)` the rounded sum `k + x` is at most `k + 1`, hence at most `n`, and
the rounded quotient is at most 1. -/
theorem sample_coordinate_range (k n : Int) (x : ℚ) (hk0 : 0 ≤ k) (hkn : k < n)
    (hn : n ≤ 2147483647) (hx0 : 0 ≤ x) (hx1 : x < 1) :
    0 ≤ round_double (round_double ((k : ℚ) + x) / (n : ℚ)) ∧
      round_double (round_double ((k : ℚ) + x) / (n : ℚ)) ≤ 1 := by
  have hk0' : (0 : ℚ) ≤ (k : ℚ) := by exact_mod_cast hk0
  have hkn' : (k : ℚ) + 1 ≤ (n : ℚ) := by exact_mod_cast hkn
  have hnpos : (0 : ℚ) < (n : ℚ) := by linarith
  have hsum0 : 0 ≤ round_double ((k : ℚ) + x) := round_double_nonneg _ (by linarith)
  have hcast : (k : ℚ) + 1 = (((k + 1).toNat : Nat) : ℚ) := by
    have h : (((k + 1).toNat : Nat) : Int) = k + 1 := Int.toNat_of_nonneg (by omega)
    have h' : ((((k + 1).toNat : Nat) : Int) : ℚ) = ((k + 1 : Int) : ℚ) := by rw [h]
    push_cast at h'
    linarith
  have hsum1 : round_double ((k : ℚ) + x) ≤ (k : ℚ) + 1 := by
    have hm := round_double_mono ((k : ℚ) + x) ((k : ℚ) + 1) (by linarith) (by linarith)
    have hfix : round_double ((k : ℚ) + 1) = (k : ℚ) + 1 := by
      rw [hcast]
      exact round_double_natCast _ (by omega)
    rwa [hfix] at hm
  have hq0 : 0 ≤ round_double ((k : ℚ) + x) / (n : ℚ) := div_nonneg hsum0 hnpos.le
  have hq1 : round_double ((k : ℚ) + x) / (n : ℚ) ≤ 1 := by
    rw [div_le_one hnpos]
    linarith
  refine ⟨round_double_nonneg _ hq0, ?_⟩
  have hm := round_double_mono _ 1 hq0 hq1
  rwa [round_double_one] at hm

/-! ## Unfolding `ray_color` -/

section unfolding

variable {σ M : Type} (L : library σ M) (world : hittable σ M)

theorem ray_color_of_nonpos (r : ray) (depth : Int) (s : σ) (hd : depth ≤ 0) :
    ray_color L r world depth s = (⟨0, 0, 0⟩, s) := by
  rw [ray_color, dif_pos hd]

theorem ray_color_of_scatter (r : ray) (depth : Int) (s : σ) (hd : 0 < depth)
    (rec : hit_record M) (s1 : σ) (hh : world.hit r 0.001 infinity s = (some rec, s1))
    (attenuation : vec3) (scattered : ray) (s2 : σ)
    (hs : L.scatter rec.mat_ptr r rec s1 = (some (attenuation, scattered), s2)) :
    ray_color L r world depth s =
      (attenuation * (ray_color L scattered world (depth - 1) s2).1,
        (ray_color L scattered world (depth - 1) s2).2) := by
  rw [ray_color, dif_neg (not_le.mpr hd)]
  simp only [hh, hs]

theorem ray_color_of_absorb (r : ray) (depth : Int) (s : σ) (hd : 0 < depth)
    (rec : hit_record M) (s1 : σ) (hh : world.hit r 0.001 infinity s = (some rec, s1))
    (s2 : σ) (hs : L.scatter rec.mat_ptr r rec s1 = (none, s2)) :
    ray_color L r world depth s = (⟨0, 0, 0⟩, s2) := by
  rw [ray_color, dif_neg (not_le.mpr hd)]
  simp only [hh, hs]

theorem ray_color_of_miss (r : ray) (depth : Int) (s : σ) (hd : 0 < depth)
    (s1 : σ) (hh : world.hit r 0.001 infinity s = (none, s1)) :
    ray_color L r world depth s =
      ((1.0 - 0.5 * ((L.unit_vector r.direction).y + 1.0)) * (⟨1.0, 1.0, 1.0⟩ : vec3)
        + (0.5 * ((L.unit_vector r.direction).y + 1.0)) * (⟨0.5, 0.7, 1.0⟩ : vec3), s1) := by
  rw [ray_color, dif_neg (not_le.mpr hd)]
  simp only [hh]

end unfolding

/-! ## What a run of `ray_color` calls -/

section calls

variable {σ M : Type} (L : library σ M) (world : hittable σ M)

theorem spy_world_hit (r : ray) (t_min : ℚ) (t_max : WithTop ℚ) (s : σ) (log : List event) :
    (spy_world world).hit r t_min t_max (s, log) =
      ((world.hit r t_min t_max s).1,
        ((world.hit r t_min t_max s).2, log ++ [event.hit r t_min t_max])) := rfl

theorem spy_library_scatter (m : M) (r : ray) (rec : hit_record M) (s : σ) (log : List event) :
    (spy_library L).scatter m r rec (s, log) =
      ((L.scatter m r rec s).1, ((L.scatter m r rec s).2, log ++ [event.scatter r])) := rfl

theorem spy_library_unit_vector (v : vec3) :
    (spy_library L).unit_vector v = L.unit_vector v := rfl

/-- A run of `ray_color` on the observed scene computes what the run on the scene
itself computes, and appends to the log only hit tests and scatter calls, at most
`depth` of each. -/
theorem spy_ray_color (n : Nat) :
    ∀ (r : ray) (depth : Int) (s : σ) (log : List event), depth.toNat ≤ n →
      ∃ evs : List event,
        ray_color (spy_library L) r (spy_world world) depth (s, log) =
            ((ray_color L r world depth s).1, ((ray_color L r world depth s).2, log ++ evs))
          ∧ evs.countP event.is_hit ≤ depth.toNat
          ∧ evs.countP event.is_scatter ≤ depth.toNat
          ∧ ∀ e ∈ evs, e.is_hit = true ∨ e.is_scatter = true := by
  induction n with
  | zero =>
    intro r depth s log hn
    have hd : depth ≤ 0 := by omega
    refine ⟨[], ?_, by simp, by simp, by simp⟩
    rw [ray_color_of_nonpos _ _ _ _ _ hd, ray_color_of_nonpos _ _ _ _ _ hd]
    simp
  | succ n ih =>
    intro r depth s log hn
    by_cases hd : depth ≤ 0
    · refine ⟨[], ?_, by simp, by simp, by simp⟩
      rw [ray_color_of_nonpos _ _ _ _ _ hd, ray_color_of_nonpos _ _ _ _ _ hd]
      simp
    · have hpos : 0 < depth := not_le.mp hd
      have h1 : 1 ≤ depth.toNat := by omega
      rcases hh : world.hit r 0.001 infinity s with ⟨o, s1⟩
      have hh' : (spy_world world).hit r 0.001 infinity (s, log) =
          (o, (s1, log ++ [event.hit r 0.001 infinity])) := by
        rw [spy_world_hit, hh]
      cases o with
      | none =>
        refine ⟨[event.hit r 0.001 infinity], ?_, ?_, ?_, ?_⟩
        · rw [ray_color_of_miss _ _ _ _ _ hpos _ hh', ray_color_of_miss _ _ _ _ _ hpos _ hh]
          rfl
        · simpa [event.is_hit] using h1
        · simp [event.is_scatter]
        · simp [event.is_hit]
      | some rec =>
        rcases hs : L.scatter rec.mat_ptr r rec s1 with ⟨o2, s2⟩
        have hs' : (spy_library L).scatter rec.mat_ptr r rec
              (s1, log ++ [event.hit r 0.001 infinity]) =
            (o2, (s2, log ++ [event.hit r 0.001 infinity] ++ [event.scatter r])) := by
          rw [spy_library_scatter, hs]
        cases o2 with
        | none =>
          refine ⟨[event.hit r 0.001 infinity, event.scatter r], ?_, ?_, ?_, ?_⟩
          · rw [ray_color_of_absorb _ _ _ _ _ hpos _ _ hh' _ hs',
              ray_color_of_absorb _ _ _ _ _ hpos _ _ hh _ hs]
            simp
          · simpa [event.is_hit] using h1
          · simpa [event.is_scatter] using h1
          · simp [event.is_hit, event.is_scatter]
        | some as =>
          obtain ⟨attenuation, scattered⟩ := as
          obtain ⟨evs, he, hc1, hc2, hall⟩ := ih scattered (depth - 1) s2
            (log ++ [event.hit r 0.001 infinity] ++ [event.scatter r]) (by omega)
          refine ⟨event.hit r 0.001 infinity :: event.scatter r :: evs, ?_, ?_, ?_, ?_⟩
          · rw [ray_color_of_scatter _ _ _ _ _ hpos _ _ hh' _ _ _ hs',
              ray_color_of_scatter _ _ _ _ _ hpos _ _ hh _ _ _ hs, he]
            simp
          · simp only [List.countP_cons, event.is_hit]
            simp
            omega
          · simp only [List.countP_cons, event.is_scatter]
            simp
            omega
          · intro e hmem
            simp only [List.mem_cons] at hmem
            rcases hmem with rfl | rfl | hmem
            · simp [event.is_hit]
            · simp [event.is_scatter]
            · exact hall e hmem

end calls

/-! ## Loop rules for the render driver -/

section loops

variable {σ M : Type} (cfg : config) (L : library σ M) (cam : camera σ)
  (world : hittable σ M)


theorem sample_loop_done (i j s : Int) (color : vec3) (st : σ)
    (h : ¬ s < cfg.samples_per_pixel) :
    sample_loop cfg L cam world i j s color st = (color, st) := by
  rw [sample_loop, dif_neg h]

theorem sample_loop_step (i j s : Int) (color : vec3) (st : σ)
    (h : s < cfg.samples_per_pixel) :
    sample_loop cfg L cam world i j s color st =
      sample_loop cfg L cam world i j (s + 1)
        (color + (sample cfg L cam world i j st).1) (sample cfg L cam world i j st).2 := by
  rw [sample_loop, dif_pos h]

theorem column_loop_done (j i : Int) (out : List output) (st : σ)
    (h : ¬ i < cfg.image_width) :
    column_loop cfg L cam world j i out st = (out, st) := by
  rw [column_loop, dif_neg h]

theorem column_loop_step (j i : Int) (out : List output) (st : σ)
    (h : i < cfg.image_width) :
    column_loop cfg L cam world j i out st =
      column_loop cfg L cam world j (i + 1)
        (out ++ [output.write_color i j
          (sample_loop cfg L cam world i j 0 ⟨0, 0, 0⟩ st).1 cfg.samples_per_pixel])
        (sample_loop cfg L cam world i j 0 ⟨0, 0, 0⟩ st).2 := by
  rw [column_loop, dif_pos h]

theorem row_loop_done (j : Int) (out : List output) (st : σ) (h : ¬ j ≥ 0) :
    row_loop cfg L cam world j out st = (out, st) := by
  rw [row_loop, dif_neg h]

theorem row_loop_step (j : Int) (out : List output) (st : σ) (h : j ≥ 0) :
    row_loop cfg L cam world j out st =
      row_loop cfg L cam world (j - 1) (column_loop cfg L cam world j 0 out st).1
        (column_loop cfg L cam world j 0 out st).2 := by
  rw [row_loop, dif_pos h]

/-- Invariant rule for the sample loop: an invariant of the loop body that holds
on entry holds on exit, where the counter has reached `samples_per_pixel` (or
never moved, if it was beyond). -/
theorem sample_loop_rule (i j : Int) (Inv : Int → vec3 → σ → Prop)
    (hstep : ∀ s color st, s < cfg.samples_per_pixel → Inv s color st →
      Inv (s + 1) (color + (sample cfg L cam world i j st).1)
        (sample cfg L cam world i j st).2)
    (n : Nat) :
    ∀ (s : Int) (color : vec3) (st : σ), (cfg.samples_per_pixel - s).toNat = n →
      Inv s color st →
      Inv (max s cfg.samples_per_pixel) (sample_loop cfg L cam world i j s color st).1
        (sample_loop cfg L cam world i j s color st).2 := by
  induction n with
  | zero =>
    intro s color st hn hinv
    have h : ¬ s < cfg.samples_per_pixel := by omega
    rw [sample_loop_done _ _ _ _ _ _ _ _ _ h, max_eq_left (by omega)]
    exact hinv
  | succ n ih =>
    intro s color st hn hinv
    have h : s < cfg.samples_per_pixel := by omega
    rw [sample_loop_step _ _ _ _ _ _ _ _ _ h]
    have := ih (s + 1) _ _ (by omega) (hstep s color st h hinv)
    rwa [max_eq_right (by omega)] at this ⊢

/-- Invariant rule for the column loop. -/
theorem column_loop_rule (j : Int) (Inv : Int → List output → σ → Prop)
    (hstep : ∀ i out st, i < cfg.image_width → Inv i out st →
      Inv (i + 1)
        (out ++ [output.write_color i j
          (sample_loop cfg L cam world i j 0 ⟨0, 0, 0⟩ st).1 cfg.samples_per_pixel])
        (sample_loop cfg L cam world i j 0 ⟨0, 0, 0⟩ st).2)
    (n : Nat) :
    ∀ (i : Int) (out : List output) (st : σ), (cfg.image_width - i).toNat = n →
      Inv i out st →
      Inv (max i cfg.image_width) (column_loop cfg L cam world j i out st).1
        (column_loop cfg L cam world j i out st).2 := by
  induction n with
  | zero =>
    intro i out st hn hinv
    have h : ¬ i < cfg.image_width := by omega
    rw [column_loop_done _ _ _ _ _ _ _ _ h, max_eq_left (by omega)]
    exact hinv
  | succ n ih =>
    intro i out st hn hinv
    have h : i < cfg.image_width := by omega
    rw [column_loop_step _ _ _ _ _ _ _ _ h]
    have := ih (i + 1) _ _ (by omega) (hstep i out st h hinv)
    rwa [max_eq_right (by omega)] at this ⊢

/-- Invariant rule for the row loop, which counts down and stops below 0. -/
theorem row_loop_rule (Inv : Int → List output → σ → Prop)
    (hstep : ∀ j out st, 0 ≤ j → Inv j out st →
      Inv (j - 1) (column_loop cfg L cam world j 0 out st).1
        (column_loop cfg L cam world j 0 out st).2)
    (n : Nat) :
    ∀ (j : Int) (out : List output) (st : σ), (j + 1).toNat = n →
      Inv j out st →
      Inv (min j (-1)) (row_loop cfg L cam world j out st).1
        (row_loop cfg L cam world j out st).2 := by
  induction n with
  | zero =>
    intro j out st hn hinv
    have h : ¬ j ≥ 0 := by omega
    rw [row_loop_done _ _ _ _ _ _ _ h, min_eq_left (by omega)]
    exact hinv
  | succ n ih =>
    intro j out st hn hinv
    have h : j ≥ 0 := by omega
    rw [row_loop_step _ _ _ _ _ _ _ h]
    have := ih (j - 1) _ _ (by omega) (hstep j out st h hinv)
    rwa [min_eq_right (by omega)] at this ⊢

/-- The sample loop adds up the colours of the samples it draws. -/
theorem sample_loop_eq (i j : Int) (n : Nat) :
    ∀ (s : Int) (color : vec3) (st : σ), (cfg.samples_per_pixel - s).toNat = n →
      sample_loop cfg L cam world i j s color st =
        ((pixel_samples cfg L cam world i j n st).1.foldl (fun a b => a + b) color,
          (pixel_samples cfg L cam world i j n st).2) := by
  induction n with
  | zero =>
    intro s color st hn
    rw [sample_loop_done _ _ _ _ _ _ _ _ _ (by omega)]
    rfl
  | succ n ih =>
    intro s color st hn
    rw [sample_loop_step _ _ _ _ _ _ _ _ _ (by omega), ih (s + 1) _ _ (by omega)]
    rfl

theorem pixel_samples_length (i j : Int) (n : Nat) :
    ∀ st : σ, (pixel_samples cfg L cam world i j n st).1.length = n := by
  induction n with
  | zero => intro st; rfl
  | succ n ih =>
    intro st
    simp only [pixel_samples, List.length_cons, ih]

/-- Every sample colour is the value of `ray_color` at depth `max_depth` on a ray
the camera returns. -/
theorem pixel_samples_mem (i j : Int) (n : Nat) :
    ∀ (st : σ) (c : vec3), c ∈ (pixel_samples cfg L cam world i j n st).1 →
      ∃ (u v : ℚ) (s0 : σ),
        c = (ray_color L (cam.get_ray u v s0).1 world cfg.max_depth
          (cam.get_ray u v s0).2).1 := by
  induction n with
  | zero =>
    intro st c hc
    simp [pixel_samples] at hc
  | succ n ih =>
    intro st c hc
    simp only [pixel_samples, List.mem_cons] at hc
    rcases hc with rfl | hc
    · exact ⟨_, _, _, rfl⟩
    · exact ih _ c hc

/-- In `main`, `image_height - 1` does not overflow. -/
theorem main_no_overflow :
    wrap_int (main_config.image_height - 1) = main_config.image_height - 1 := by
  decide

/-- Invariant rule for the three nested loops: a property of the output and the
state that every pixel preserves holds at the end, if it holds of the header. -/
theorem render_rule (Inv : List output → σ → Prop)
    (hpixel : ∀ (i j : Int) (out : List output) (st : σ),
      0 ≤ i → i < cfg.image_width → 0 ≤ j → j < cfg.image_height → Inv out st →
      Inv
        (out ++ [output.write_color i j
          (sample_loop cfg L cam world i j 0 ⟨0, 0, 0⟩ st).1 cfg.samples_per_pixel])
        (sample_loop cfg L cam world i j 0 ⟨0, 0, 0⟩ st).2)
    (hno : wrap_int (cfg.image_height - 1) = cfg.image_height - 1)
    (st : σ) (h0 : Inv [output.header cfg.image_width cfg.image_height] st) :
    Inv (render cfg L cam world st).1 (render cfg L cam world st).2 := by
  unfold render
  rw [hno]
  have hrow := row_loop_rule cfg L cam world
    (fun j out st => j < cfg.image_height ∧ Inv out st)
    (by
      intro j out st hj0 hinv
      obtain ⟨hjh, hI⟩ := hinv
      have hcol := column_loop_rule cfg L cam world j
        (fun i out st => 0 ≤ i ∧ Inv out st)
        (by
          intro i out st hi hinv
          exact ⟨by omega, hpixel i j out st hinv.1 hi hj0 hjh hinv.2⟩)
        _ 0 out st rfl ⟨le_rfl, hI⟩
      exact ⟨by omega, hcol.2⟩)
    _ (cfg.image_height - 1) [output.header cfg.image_width cfg.image_height] st rfl
    ⟨by omega, h0⟩
  exact hrow.2

theorem scan_rows_eq_scan_order (w : Nat) : ∀ h : Nat, scan_rows w h = scan_order w h := by
  intro h
  induction h with
  | zero => rfl
  | succ n ih =>
    simp only [scan_rows, scan_order, List.range_succ, List.reverse_append,
      List.reverse_cons, List.reverse_nil, List.nil_append, List.singleton_append,
      List.flatMap_cons]
    rw [ih]
    rfl

/-- The column loop, entered at column 0, appends the pixels of its row from
column 0 upwards. -/
theorem column_loop_pixels (w : Nat) (hw : cfg.image_width = w) (j : Int)
    (out : List output) (st : σ) :
    (column_loop cfg L cam world j 0 out st).1.map output.pixel =
      out.map output.pixel ++ (List.range w).map (fun (i : Nat) => some ((i : Int), j)) := by
  have hcol := column_loop_rule cfg L cam world j
    (fun i o _ => ∃ a : Nat, i = a ∧ a ≤ w ∧
      o.map output.pixel ++ (List.range' a (w - a)).map (fun (x : Nat) => some ((x : Int), j)) =
        out.map output.pixel ++ (List.range w).map (fun (x : Nat) => some ((x : Int), j)))
    (by
      intro i o s hi hinv
      obtain ⟨a, rfl, _, heq⟩ := hinv
      have halt : a < w := by omega
      refine ⟨a + 1, by push_cast; rfl, halt, ?_⟩
      rw [← heq]
      have hsplit : w - a = (w - (a + 1)) + 1 := by omega
      rw [hsplit, List.range'_succ]
      simp [output.pixel])
    _ 0 out st rfl ⟨0, rfl, Nat.zero_le _, by simp [List.range_eq_range']⟩
  obtain ⟨a, ha, _, heq⟩ := hcol
  have haw : a = w := by
    have : max (0 : Int) cfg.image_width = w := by rw [hw]; simp
    omega
  subst haw
  simpa using heq

/-- The loops write the header and then the pixels in scan order. -/
theorem render_pixels (w h : Nat) (hw : cfg.image_width = w) (hh : cfg.image_height = h)
    (hno : wrap_int (cfg.image_height - 1) = cfg.image_height - 1) (st : σ) :
    (render cfg L cam world st).1.map output.pixel = none :: (scan_order w h).map some := by
  unfold render
  rw [hno]
  have hrow := row_loop_rule cfg L cam world
    (fun j o _ => ∃ n : Nat, j = (n : Int) - 1 ∧
      o.map output.pixel ++ (scan_rows w n).map some = none :: (scan_rows w h).map some)
    (by
      intro j o s hj hinv
      obtain ⟨n, rfl, heq⟩ := hinv
      obtain ⟨m, rfl⟩ : ∃ m, n = m + 1 := ⟨n - 1, by omega⟩
      refine ⟨m, by push_cast; ring, ?_⟩
      rw [column_loop_pixels cfg L cam world w hw, ← heq]
      simp [scan_rows, Function.comp_def])
    _ (cfg.image_height - 1) [output.header cfg.image_width cfg.image_height] st rfl
    ⟨h, by rw [hh], by simp [output.pixel]⟩
  obtain ⟨n, hn, heq⟩ := hrow
  have hn0 : n = 0 := by
    have : min (cfg.image_height - 1) (-1 : Int) = -1 := by rw [hh]; omega
    omega
  subst hn0
  rw [← scan_rows_eq_scan_order]
  simpa [scan_rows] using heq

theorem scan_rows_length (w : Nat) : ∀ h : Nat, (scan_rows w h).length = h * w := by
  intro h
  induction h with
  | zero => simp [scan_rows]
  | succ n ih =>
    simp only [scan_rows, List.length_append, List.length_map, List.length_range, ih]
    ring

theorem mem_scan_rows (w : Nat) (p : Int × Int) :
    ∀ h : Nat, p ∈ scan_rows w h ↔ ∃ i j : Nat, i < w ∧ j < h ∧ p = ((i : Int), (j : Int)) := by
  intro h
  induction h with
  | zero => simp [scan_rows]
  | succ n ih =>
    simp only [scan_rows, List.mem_append, List.mem_map, List.mem_range, ih]
    constructor
    · rintro (⟨i, hi, rfl⟩ | ⟨i, j, hi, hj, rfl⟩)
      · exact ⟨i, n, hi, Nat.lt_succ_self n, rfl⟩
      · exact ⟨i, j, hi, Nat.lt_succ_of_lt hj, rfl⟩
    · rintro ⟨i, j, hi, hj, rfl⟩
      by_cases hjn : j = n
      · subst hjn
        exact Or.inl ⟨i, hi, rfl⟩
      · exact Or.inr ⟨i, j, hi, by omega, rfl⟩

theorem scan_rows_nodup (w : Nat) : ∀ h : Nat, (scan_rows w h).Nodup := by
  intro h
  induction h with
  | zero => simp [scan_rows]
  | succ n ih =>
    simp only [scan_rows]
    rw [List.nodup_append]
    refine ⟨?_, ih, ?_⟩
    · refine (List.nodup_range w).map ?_
      intro a b hab
      simpa using hab
    · intro p hp1 hp2
      rw [List.mem_map] at hp1
      obtain ⟨i, _, rfl⟩ := hp1
      rw [mem_scan_rows] at hp2
      obtain ⟨i', j', _, hj', heq⟩ := hp2
      simp only [Prod.mk.injEq, Nat.cast_inj] at heq
      omega

/-- Each `write_color` of a run is made with `samples_per_pixel` and on the sum
of the colours of that many successive samples of its pixel. -/
theorem render_colors (hno : wrap_int (cfg.image_height - 1) = cfg.image_height - 1)
    (st : σ) :
    ∀ (i j : Int) (c : vec3) (n : Int),
      output.write_color i j c n ∈ (render cfg L cam world st).1 →
      n = cfg.samples_per_pixel ∧
      ∃ st0 : σ,
        c = (pixel_samples cfg L cam world i j cfg.samples_per_pixel.toNat st0).1.foldl
          (fun a b => a + b) ⟨0, 0, 0⟩ := by
  refine render_rule cfg L cam world
    (fun out _ => ∀ (i j : Int) (c : vec3) (n : Int), output.write_color i j c n ∈ out →
      n = cfg.samples_per_pixel ∧
      ∃ st0 : σ,
        c = (pixel_samples cfg L cam world i j cfg.samples_per_pixel.toNat st0).1.foldl
          (fun a b => a + b) ⟨0, 0, 0⟩)
    ?_ hno st ?_
  · intro i j out s _ _ _ _ hinv i' j' c n hmem
    rw [List.mem_append, List.mem_singleton] at hmem
    rcases hmem with hmem | heq
    · exact hinv i' j' c n hmem
    · simp only [output.write_color.injEq] at heq
      obtain ⟨rfl, rfl, rfl, rfl⟩ := heq
      refine ⟨rfl, s, ?_⟩
      rw [sample_loop_eq cfg L cam world i' j' cfg.samples_per_pixel.toNat 0 _ s (by simp)]
  · intro i j c n hmem
    simp at hmem

/-- The header is the first item of the output. -/
theorem render_head (hno : wrap_int (cfg.image_height - 1) = cfg.image_height - 1)
    (st : σ) :
    (render cfg L cam world st).1.head? =
      some (output.header cfg.image_width cfg.image_height) := by
  refine render_rule cfg L cam world
    (fun out _ => out.head? = some (output.header cfg.image_width cfg.image_height))
    ?_ hno st rfl
  intro i j out s _ _ _ _ hinv
  cases out with
  | nil => simp at hinv
  | cons o os => simpa using hinv

theorem filterMap_of_map_eq {α β : Type} (f : α → Option β) :
    ∀ (l : List α) (t : List β), l.map f = t.map some → l.filterMap f = t := by
  intro l
  induction l with
  | nil =>
    intro t h
    cases t with
    | nil => rfl
    | cons b t => simp at h
  | cons a l ih =>
    intro t h
    cases t with
    | nil => simp at h
    | cons b t =>
      simp only [List.map_cons, List.cons.injEq] at h
      rw [List.filterMap_cons, h.1, ih t h.2]

/-- The pixels written by a run, in the order they are written. -/
theorem render_filterMap_pixel (w h : Nat) (hw : cfg.image_width = w)
    (hh : cfg.image_height = h)
    (hno : wrap_int (cfg.image_height - 1) = cfg.image_height - 1) (st : σ) :
    (render cfg L cam world st).1.filterMap output.pixel = scan_order w h := by
  have hmap := render_pixels cfg L cam world w h hw hh hno st
  cases hout : (render cfg L cam world st).1 with
  | nil => rw [hout] at hmap; simp at hmap
  | cons o os =>
    rw [hout] at hmap
    simp only [List.map_cons, List.cons.injEq] at hmap
    rw [List.filterMap_cons, hmap.1]
    exact filterMap_of_map_eq output.pixel os _ hmap.2

theorem scan_order_length (w h : Nat) : (scan_order w h).length = h * w := by
  rw [← scan_rows_eq_scan_order, scan_rows_length]

theorem scan_order_nodup (w h : Nat) : (scan_order w h).Nodup := by
  rw [← scan_rows_eq_scan_order]
  exact scan_rows_nodup w h

theorem mem_scan_order (w h i j : Nat) (hi : i < w) (hj : j < h) :
    ((i : Int), (j : Int)) ∈ scan_order w h := by
  rw [← scan_rows_eq_scan_order]
  exact (mem_scan_rows w _ h).mpr ⟨i, j, hi, hj, rfl⟩

/-- The scan order of an image of 2 by 2 pixels. -/
theorem scan_order_two_by_two : scan_order 2 2 = [(0, 1), (1, 1), (0, 0), (1, 0)] := by
  decide

end loops

/-! ## The small scene -/

section demo

theorem rat_sqrt_one : Rat.sqrt 1 = 1 := by
  simp

theorem demo_unit_vector_down : demo_unit_vector ⟨0, -1, 0⟩ = ⟨0, -1, 0⟩ := by
  simp [demo_unit_vector, rat_sqrt_one]

theorem demo_unit_vector_up : demo_unit_vector ⟨0, 1, 0⟩ = ⟨0, 1, 0⟩ := by
  simp [demo_unit_vector, rat_sqrt_one]

theorem demo_hit_down (s : Nat) :
    demo_world.hit demo_ray_down 0.001 infinity s =
      (some ⟨⟨0, 0, 0⟩, ⟨0, 1, 0⟩, 1, true, true⟩, s) := by
  simp [demo_world, demo_ray_down, infinity]
  norm_num

theorem demo_hit_absorbed (s : Nat) :
    demo_world.hit demo_ray_absorbed 0.001 infinity s =
      (some ⟨⟨-1, 0, 0⟩, ⟨0, 1, 0⟩, 1, true, false⟩, s) := by
  simp [demo_world, demo_ray_absorbed, infinity]
  norm_num

theorem demo_hit_below (s : Nat) :
    demo_world.hit demo_ray_below 0.001 infinity s = (none, s) := by
  simp [demo_world, demo_ray_below]

theorem demo_hit_up (s : Nat) :
    demo_world.hit demo_ray_up 0.001 infinity s = (none, s) := by
  simp [demo_world, demo_ray_up]

theorem demo_unit_vector_y (v : vec3) :
    -1 ≤ (demo_unit_vector v).y ∧ (demo_unit_vector v).y ≤ 1 := by
  unfold demo_unit_vector
  simp only
  split
  · rename_i h
    obtain ⟨hsq, hne⟩ := h
    have hl : 0 < Rat.sqrt (v.x * v.x + v.y * v.y + v.z * v.z) :=
      lt_of_le_of_ne (Rat.sqrt_nonneg _) (Ne.symm hne)
    have hy : v.y ^ 2 ≤ Rat.sqrt (v.x * v.x + v.y * v.y + v.z * v.z) ^ 2 := by
      rw [pow_two, pow_two, hsq]
      nlinarith [mul_self_nonneg v.x, mul_self_nonneg v.z]
    have hb := abs_le_of_sq_le_sq' hy hl.le
    constructor
    · rw [le_div_iff₀ hl]
      linarith [hb.1]
    · rw [div_le_one hl]
      exact hb.2
  · norm_num

theorem demo_scatter_attenuation (m : Bool) (r : ray) (rec : hit_record Bool) (s : Nat)
    (attenuation : vec3) (scattered : ray) (s2 : Nat)
    (h : demo_library.scatter m r rec s = (some (attenuation, scattered), s2)) :
    attenuation.in_unit_range := by
  cases m with
  | false => simp [demo_library] at h
  | true =>
    simp only [demo_library, if_true, Prod.mk.injEq, Option.some.injEq] at h
    rw [← h.1.1]
    simp only [vec3.in_unit_range]
    norm_num

theorem demo_random_double_range (s : Nat) :
    0 ≤ (demo_library.random_double s).1 ∧ (demo_library.random_double s).1 < 1 := by
  simp only [demo_library]
  have h : s % 4 < 4 := Nat.mod_lt s (by decide)
  have h' : ((s % 4 : Nat) : ℚ) < 4 := by exact_mod_cast h
  constructor
  · positivity
  · rw [div_lt_one (by norm_num)]
    exact h'

end demo

/-! ## The claims on `ray_color` -/

section claims_ray_color

/-- C1: for every ray, every scene, every library of materials, every state and
every depth that is zero or negative, `ray_color` returns exactly the black colour
`(0, 0, 0)` and leaves the state as it was; run on the observed scene it leaves
the log of calls as it was, so neither the hit test of the scene nor a material
has been consulted. -/
theorem ray_color_depth_exhausted {σ M : Type} (L : library σ M) (r : ray)
    (world : hittable σ M) (depth : Int) (s : σ) (log : List event) (hd : depth ≤ 0) :
    ray_color L r world depth s = (⟨0, 0, 0⟩, s) ∧
      ray_color (spy_library L) r (spy_world world) depth (s, log) = (⟨0, 0, 0⟩, (s, log)) :=
  ⟨ray_color_of_nonpos L world r depth s hd,
    ray_color_of_nonpos (spy_library L) (spy_world world) r depth (s, log) hd⟩

theorem ray_color_depth_exhausted_witness :
    ((-3 : Int) ≤ 0) ∧
      ray_color demo_library demo_ray_down demo_world (-3) 7 = (⟨0, 0, 0⟩, 7) ∧
      ray_color (spy_library demo_library) demo_ray_down (spy_world demo_world) (-3)
        (7, [event.get_ray 0 0]) = (⟨0, 0, 0⟩, (7, [event.get_ray 0 0])) :=
  ⟨by decide,
    ray_color_depth_exhausted demo_library demo_ray_down demo_world (-3) 7
      [event.get_ray 0 0] (by decide)⟩

/-- C2: for every depth > 0 and every ray on which the hit test of the scene, asked
with the window `t_min = 0.001`, `t_max = infinity`, reports a hit `rec`: if the
scatter of the material of `rec` succeeds with `(attenuation, scattered)`, then
`ray_color r world depth` is the component-wise product of `attenuation` and
`ray_color scattered world (depth - 1)`, evaluated from the state the scatter
leaves; if the scatter reports no scatter, `ray_color` returns exactly black in
the state the scatter leaves, and the calls it has made are that one hit test and
that one scatter and nothing else: there is no recursive call. -/
theorem ray_color_on_hit {σ M : Type} (L : library σ M) (r : ray) (world : hittable σ M)
    (depth : Int) (s : σ) (rec : hit_record M) (s1 : σ) (hd : 0 < depth)
    (hh : world.hit r 0.001 infinity s = (some rec, s1)) :
    (∀ (attenuation : vec3) (scattered : ray) (s2 : σ),
        L.scatter rec.mat_ptr r rec s1 = (some (attenuation, scattered), s2) →
        ray_color L r world depth s =
          (attenuation * (ray_color L scattered world (depth - 1) s2).1,
            (ray_color L scattered world (depth - 1) s2).2)) ∧
      (∀ s2 : σ, L.scatter rec.mat_ptr r rec s1 = (none, s2) →
        ray_color L r world depth s = (⟨0, 0, 0⟩, s2) ∧
        ∀ log : List event,
          ray_color (spy_library L) r (spy_world world) depth (s, log) =
            (⟨0, 0, 0⟩, (s2, log ++ [event.hit r 0.001 infinity, event.scatter r]))) := by
  refine ⟨fun attenuation scattered s2 hs =>
    ray_color_of_scatter L world r depth s hd rec s1 hh attenuation scattered s2 hs, ?_⟩
  intro s2 hs
  refine ⟨ray_color_of_absorb L world r depth s hd rec s1 hh s2 hs, fun log => ?_⟩
  have hh' : (spy_world world).hit r 0.001 infinity (s, log) =
      (some rec, (s1, log ++ [event.hit r 0.001 infinity])) := by
    rw [spy_world_hit, hh]
  have hs' : (spy_library L).scatter rec.mat_ptr r rec
        (s1, log ++ [event.hit r 0.001 infinity]) =
      (none, (s2, log ++ [event.hit r 0.001 infinity] ++ [event.scatter r])) := by
    rw [spy_library_scatter, hs]
  rw [ray_color_of_absorb _ _ _ _ _ hd _ _ hh' _ hs']
  simp

theorem ray_color_on_hit_witness :
    ((0 : Int) < 2 ∧
        demo_world.hit demo_ray_down 0.001 infinity 5 =
          (some ⟨⟨0, 0, 0⟩, ⟨0, 1, 0⟩, 1, true, true⟩, 5) ∧
        demo_library.scatter true demo_ray_down ⟨⟨0, 0, 0⟩, ⟨0, 1, 0⟩, 1, true, true⟩ 5 =
          (some (⟨1 / 2, 1 / 2, 1 / 2⟩, demo_ray_up), 5) ∧
        ray_color demo_library demo_ray_down demo_world 2 5 =
          (⟨1 / 2, 1 / 2, 1 / 2⟩ * (ray_color demo_library demo_ray_up demo_world (2 - 1) 5).1,
            (ray_color demo_library demo_ray_up demo_world (2 - 1) 5).2)) ∧
      (demo_world.hit demo_ray_absorbed 0.001 infinity 5 =
          (some ⟨⟨-1, 0, 0⟩, ⟨0, 1, 0⟩, 1, true, false⟩, 5) ∧
        demo_library.scatter false demo_ray_absorbed
            ⟨⟨-1, 0, 0⟩, ⟨0, 1, 0⟩, 1, true, false⟩ 5 = (none, 5) ∧
        ray_color demo_library demo_ray_absorbed demo_world 2 5 = (⟨0, 0, 0⟩, 5) ∧
        ray_color (spy_library demo_library) demo_ray_absorbed (spy_world demo_world) 2
            (5, []) =
          (⟨0, 0, 0⟩, (5, [] ++ [event.hit demo_ray_absorbed 0.001 infinity,
            event.scatter demo_ray_absorbed]))) := by
  have hs1 : demo_library.scatter true demo_ray_down
      ⟨⟨0, 0, 0⟩, ⟨0, 1, 0⟩, 1, true, true⟩ 5 =
      (some (⟨1 / 2, 1 / 2, 1 / 2⟩, demo_ray_up), 5) := by
    simp [demo_library, demo_ray_down, demo_ray_up]
  have hs2 : demo_library.scatter false demo_ray_absorbed
      ⟨⟨-1, 0, 0⟩, ⟨0, 1, 0⟩, 1, true, false⟩ 5 = (none, 5) := by
    simp [demo_library]
  have h1 := (ray_color_on_hit demo_library demo_ray_down demo_world 2 5 _ 5 (by decide)
    (demo_hit_down 5)).1 _ _ _ hs1
  have h2 := (ray_color_on_hit demo_library demo_ray_absorbed demo_world 2 5 _ 5 (by decide)
    (demo_hit_absorbed 5)).2 _ hs2
  exact ⟨⟨by decide, demo_hit_down 5, hs1, h1⟩, demo_hit_absorbed 5, hs2, h2.1, h2.2 []⟩

/-- C3: for every depth > 0 and every ray the hit test of the scene reports as a
miss, `ray_color` returns the sky gradient `(1 - t) * (1, 1, 1) + t * (0.5, 0.7, 1.0)`
with `t = 0.5 * (y + 1)`, where `y` is the vertical component of the normalised
direction of the ray.  In particular, for the straight-down direction `(0, -1, 0)`
(a unit vector, which the normalisation returns as it is) the result is exactly
pure white `(1, 1, 1)`, and for the straight-up direction `(0, 1, 0)` it is exactly
the sky-blue `(0.5, 0.7, 1.0)`. -/
theorem ray_color_on_miss {σ M : Type} (L : library σ M) (r : ray) (world : hittable σ M)
    (depth : Int) (s s1 : σ) (hd : 0 < depth)
    (hh : world.hit r 0.001 infinity s = (none, s1)) :
    ray_color L r world depth s =
        ((1 - 0.5 * ((L.unit_vector r.direction).y + 1)) * (⟨1, 1, 1⟩ : vec3)
          + (0.5 * ((L.unit_vector r.direction).y + 1)) * (⟨0.5, 0.7, 1.0⟩ : vec3), s1) ∧
      (r.direction = ⟨0, -1, 0⟩ → L.unit_vector ⟨0, -1, 0⟩ = ⟨0, -1, 0⟩ →
        ray_color L r world depth s = (⟨1, 1, 1⟩, s1)) ∧
      (r.direction = ⟨0, 1, 0⟩ → L.unit_vector ⟨0, 1, 0⟩ = ⟨0, 1, 0⟩ →
        ray_color L r world depth s = (⟨0.5, 0.7, 1.0⟩, s1)) := by
  have h := ray_color_of_miss L world r depth s hd s1 hh
  refine ⟨?_, ?_, ?_⟩
  · rw [h]; norm_num
  · intro hdir hu
    rw [h, hdir, hu]
    simp only [vec3.scale_def, vec3.add_def]
    norm_num
  · intro hdir hu
    rw [h, hdir, hu]
    simp only [vec3.scale_def, vec3.add_def]
    norm_num

theorem ray_color_on_miss_witness :
    ((0 : Int) < 1 ∧ demo_world.hit demo_ray_below 0.001 infinity 0 = (none, 0) ∧
        demo_ray_below.direction = ⟨0, -1, 0⟩ ∧
        demo_library.unit_vector ⟨0, -1, 0⟩ = ⟨0, -1, 0⟩ ∧
        ray_color demo_library demo_ray_below demo_world 1 0 = (⟨1, 1, 1⟩, 0)) ∧
      (demo_world.hit demo_ray_up 0.001 infinity 0 = (none, 0) ∧
        demo_ray_up.direction = ⟨0, 1, 0⟩ ∧
        demo_library.unit_vector ⟨0, 1, 0⟩ = ⟨0, 1, 0⟩ ∧
        ray_color demo_library demo_ray_up demo_world 1 0 = (⟨0.5, 0.7, 1.0⟩, 0)) :=
  ⟨⟨by decide, demo_hit_below 0, rfl, demo_unit_vector_down,
      (ray_color_on_miss demo_library demo_ray_below demo_world 1 0 0 (by decide)
        (demo_hit_below 0)).2.1 rfl demo_unit_vector_down⟩,
    demo_hit_up 0, rfl, demo_unit_vector_up,
      (ray_color_on_miss demo_library demo_ray_up demo_world 1 0 0 (by decide)
        (demo_hit_up 0)).2.2 rfl demo_unit_vector_up⟩

end claims_ray_color

section claims_energy

variable {σ M : Type} (L : library σ M) (world : hittable σ M)

/-- The colour of a ray lies in `[0, 1]` component by component, provided the
attenuations do and the normalised directions have their vertical component in
`[-1, 1]`. -/
theorem ray_color_in_unit_range
    (hatt : ∀ m r rec s attenuation scattered s2,
      L.scatter m r rec s = (some (attenuation, scattered), s2) → attenuation.in_unit_range)
    (hy : ∀ v, -1 ≤ (L.unit_vector v).y ∧ (L.unit_vector v).y ≤ 1) (n : Nat) :
    ∀ (r : ray) (depth : Int) (s : σ), depth.toNat ≤ n →
      (ray_color L r world depth s).1.in_unit_range := by
  induction n with
  | zero =>
    intro r depth s hn
    rw [ray_color_of_nonpos L world r depth s (by omega)]
    simp [vec3.in_unit_range]
  | succ n ih =>
    intro r depth s hn
    by_cases hd : depth ≤ 0
    · rw [ray_color_of_nonpos L world r depth s hd]
      simp [vec3.in_unit_range]
    · have hpos : 0 < depth := not_le.mp hd
      rcases hh : world.hit r 0.001 infinity s with ⟨o, s1⟩
      cases o with
      | none =>
        rw [ray_color_of_miss L world r depth s hpos s1 hh]
        obtain ⟨h1, h2⟩ := hy r.direction
        simp only [vec3.scale_def, vec3.add_def, vec3.in_unit_range]
        norm_num
        refine ⟨⟨?_, ?_⟩, ?_, ?_⟩ <;> linarith
      | some rec =>
        rcases hs : L.scatter rec.mat_ptr r rec s1 with ⟨o2, s2⟩
        cases o2 with
        | none =>
          rw [ray_color_of_absorb L world r depth s hpos rec s1 hh s2 hs]
          simp [vec3.in_unit_range]
        | some as =>
          obtain ⟨attenuation, scattered⟩ := as
          rw [ray_color_of_scatter L world r depth s hpos rec s1 hh attenuation scattered s2 hs]
          obtain ⟨⟨a1, a2⟩, ⟨a3, a4⟩, a5, a6⟩ := hatt _ _ _ _ _ _ _ hs
          obtain ⟨⟨c1, c2⟩, ⟨c3, c4⟩, c5, c6⟩ := ih scattered (depth - 1) s2 (by omega)
          simp only [vec3.mul_def, vec3.in_unit_range]
          exact ⟨⟨mul_nonneg a1 c1, mul_le_one₀ a2 c1 c2⟩,
            ⟨mul_nonneg a3 c3, mul_le_one₀ a4 c3 c4⟩,
            mul_nonneg a5 c5, mul_le_one₀ a6 c5 c6⟩

/-- C4: energy is not amplified.  In a scene where every successful scatter returns
an attenuation with its three components in `[0, 1]`, and with the vertical
component of every normalised direction in `[-1, 1]`: for every ray, every integer
depth and every state, each component of `ray_color r world depth` lies in
`[0, 1]`; and on a hit that scatters, each component of the result is at most the
same component of the recursive result for the scattered ray. -/
theorem ray_color_energy
    (hatt : ∀ m r rec s attenuation scattered s2,
      L.scatter m r rec s = (some (attenuation, scattered), s2) → attenuation.in_unit_range)
    (hy : ∀ v, -1 ≤ (L.unit_vector v).y ∧ (L.unit_vector v).y ≤ 1) :
    (∀ (r : ray) (depth : Int) (s : σ), (ray_color L r world depth s).1.in_unit_range) ∧
      (∀ (r : ray) (depth : Int) (s : σ) (rec : hit_record M) (s1 : σ) (attenuation : vec3)
          (scattered : ray) (s2 : σ), 0 < depth →
        world.hit r 0.001 infinity s = (some rec, s1) →
        L.scatter rec.mat_ptr r rec s1 = (some (attenuation, scattered), s2) →
        (ray_color L r world depth s).1.x ≤ (ray_color L scattered world (depth - 1) s2).1.x ∧
        (ray_color L r world depth s).1.y ≤ (ray_color L scattered world (depth - 1) s2).1.y ∧
        (ray_color L r world depth s).1.z ≤
          (ray_color L scattered world (depth - 1) s2).1.z) := by
  have hall : ∀ (r : ray) (depth : Int) (s : σ),
      (ray_color L r world depth s).1.in_unit_range :=
    fun r depth s => ray_color_in_unit_range L world hatt hy depth.toNat r depth s le_rfl
  refine ⟨hall, ?_⟩
  intro r depth s rec s1 attenuation scattered s2 hpos hh hs
  rw [ray_color_of_scatter L world r depth s hpos rec s1 hh attenuation scattered s2 hs]
  obtain ⟨⟨_, a2⟩, ⟨_, a4⟩, _, a6⟩ := hatt _ _ _ _ _ _ _ hs
  obtain ⟨⟨c1, _⟩, ⟨c3, _⟩, c5, _⟩ := hall scattered (depth - 1) s2
  simp only [vec3.mul_def]
  exact ⟨mul_le_of_le_one_left c1 a2, mul_le_of_le_one_left c3 a4,
    mul_le_of_le_one_left c5 a6⟩

end claims_energy

theorem ray_color_energy_witness :
    (∀ m r rec s attenuation scattered s2,
        demo_library.scatter m r rec s = (some (attenuation, scattered), s2) →
        attenuation.in_unit_range) ∧
      (∀ v, -1 ≤ (demo_library.unit_vector v).y ∧ (demo_library.unit_vector v).y ≤ 1) ∧
      (ray_color demo_library demo_ray_down demo_world 2 5).1.in_unit_range ∧
      (ray_color demo_library demo_ray_down demo_world 2 5).1.y ≤
        (ray_color demo_library demo_ray_up demo_world (2 - 1) 5).1.y :=
  ⟨demo_scatter_attenuation, demo_unit_vector_y,
    (ray_color_energy demo_library demo_world demo_scatter_attenuation
      demo_unit_vector_y).1 demo_ray_down 2 5,
    ((ray_color_energy demo_library demo_world demo_scatter_attenuation
      demo_unit_vector_y).2 demo_ray_down 2 5 _ 5 ⟨1 / 2, 1 / 2, 1 / 2⟩ demo_ray_up 5
      (by decide) (demo_hit_down 5)
      (by simp [demo_library, demo_ray_down, demo_ray_up])).2.1⟩

section claims_termination

/-- C5: `ray_color` is a total function of the ray, the scene, the integer depth and
the state: its recursion descends on `depth` (the definition is accepted with the
measure `depth.toNat`), whatever the hit test and the materials answer, so also
when every hit scatters.  A run from depth `d` makes at most `d` hit tests of the
scene and at most `d` scatter calls (`d.toNat` is `d` for `d ≥ 0` and `0` for
`d ≤ 0`), makes no other call, hence no call at all when `d ≤ 0`; and the observed
run returns what the run itself returns. -/
theorem ray_color_terminates_bounded {σ M : Type} (L : library σ M) (r : ray)
    (world : hittable σ M) (depth : Int) (s : σ) (log : List event) :
    ∃ (c : vec3) (s' : σ) (evs : List event),
      ray_color L r world depth s = (c, s') ∧
      ray_color (spy_library L) r (spy_world world) depth (s, log) = (c, (s', log ++ evs)) ∧
      evs.countP event.is_hit ≤ depth.toNat ∧
      evs.countP event.is_scatter ≤ depth.toNat ∧
      evs.length = evs.countP event.is_hit + evs.countP event.is_scatter ∧
      evs.length ≤ 2 * depth.toNat := by
  obtain ⟨evs, he, h1, h2, h3⟩ := spy_ray_color L world depth.toNat r depth s log le_rfl
  have hlen : evs.length = evs.countP event.is_hit + evs.countP event.is_scatter := by
    clear he h1 h2
    induction evs with
    | nil => simp
    | cons e es ih =>
      have hes := ih (fun x hx => h3 x (List.mem_cons_of_mem _ hx))
      have he := h3 e (List.mem_cons_self _ _)
      cases e <;> simp [event.is_hit, event.is_scatter] at he ⊢ <;> omega
  exact ⟨(ray_color L r world depth s).1, (ray_color L r world depth s).2, evs, rfl, he,
    h1, h2, hlen, by omega⟩

end claims_termination

/-! ## The claims on `schlick` -/

section claims_schlick

/-- C6: for every cosine and every refractive index `ref_idx` other than `-1` (so
that the divisor `1 + ref_idx` is not zero), `schlick cosine ref_idx` equals
`r0 + (1 - r0) * (1 - cosine)^5` with `r0 = ((1 - ref_idx) / (1 + ref_idx))^2`;
at normal incidence (`cosine = 1`) it equals `r0`, which for `ref_idx = 1.5` is
`1/25 = 0.04`. -/
theorem schlick_formula (cosine ref_idx : ℚ) (h : ref_idx ≠ -1) :
    1 + ref_idx ≠ 0 ∧
      schlick cosine ref_idx =
        ((1 - ref_idx) / (1 + ref_idx)) ^ 2
          + (1 - ((1 - ref_idx) / (1 + ref_idx)) ^ 2) * (1 - cosine) ^ 5 ∧
      schlick 1 ref_idx = ((1 - ref_idx) / (1 + ref_idx)) ^ 2 ∧
      (ref_idx = 1.5 → schlick 1 ref_idx = 1 / 25 ∧ schlick 1 ref_idx = 0.04) := by
  refine ⟨?_, ?_, ?_, ?_⟩
  · intro h0
    exact h (by linarith)
  · simp only [schlick, pow_two]
  · simp only [schlick, pow_two]
    norm_num
  · intro h15
    subst h15
    simp only [schlick]
    norm_num

theorem schlick_formula_witness :
    ((1.5 : ℚ) ≠ -1) ∧ (1 + (1.5 : ℚ) ≠ 0) ∧
      schlick (1 / 2) 1.5 =
        ((1 - 1.5) / (1 + 1.5)) ^ 2 + (1 - ((1 - 1.5) / (1 + 1.5)) ^ 2) * (1 - 1 / 2) ^ 5 ∧
      schlick 1 1.5 = ((1 - 1.5) / (1 + 1.5)) ^ 2 ∧
      schlick 1 1.5 = 1 / 25 ∧ schlick 1 1.5 = 0.04 :=
  have h := schlick_formula (1 / 2) 1.5 (by norm_num)
  ⟨by norm_num, h.1, h.2.1, h.2.2.1, h.2.2.2 rfl⟩

/-- C10: `schlick` returns a probability.  For every refractive index
`ref_idx ≥ 0` and every cosine in `[0, 1]`, with
`r0 = ((1 - ref_idx) / (1 + ref_idx))^2`:
`0 ≤ r0 ≤ schlick cosine ref_idx ≤ 1`, and `schlick 0 ref_idx = 1` at grazing
incidence. -/
theorem schlick_probability (cosine ref_idx : ℚ) (hn : 0 ≤ ref_idx) (h0 : 0 ≤ cosine)
    (h1 : cosine ≤ 1) :
    0 ≤ ((1 - ref_idx) / (1 + ref_idx)) ^ 2 ∧
      ((1 - ref_idx) / (1 + ref_idx)) ^ 2 ≤ schlick cosine ref_idx ∧
      schlick cosine ref_idx ≤ 1 ∧
      schlick 0 ref_idx = 1 := by
  have hden : 0 < 1 + ref_idx := by linarith
  have hq1 : (1 - ref_idx) / (1 + ref_idx) ≤ 1 := by
    rw [div_le_one hden]; linarith
  have hq2 : -1 ≤ (1 - ref_idx) / (1 + ref_idx) := by
    rw [le_div_iff₀ hden]; linarith
  have hr0 : 0 ≤ ((1 - ref_idx) / (1 + ref_idx)) ^ 2 := sq_nonneg _
  have hr1 : ((1 - ref_idx) / (1 + ref_idx)) ^ 2 ≤ 1 := by
    rw [sq_le_one_iff_abs_le_one, abs_le]
    exact ⟨hq2, hq1⟩
  have hp0 : 0 ≤ (1 - cosine) ^ 5 := pow_nonneg (by linarith) 5
  have hp1 : (1 - cosine) ^ 5 ≤ 1 := pow_le_one₀ (by linarith) (by linarith)
  have hs : schlick cosine ref_idx =
      ((1 - ref_idx) / (1 + ref_idx)) ^ 2
        + (1 - ((1 - ref_idx) / (1 + ref_idx)) ^ 2) * (1 - cosine) ^ 5 := by
    simp only [schlick, pow_two]
  refine ⟨hr0, ?_, ?_, ?_⟩
  · rw [hs]
    nlinarith [mul_nonneg (sub_nonneg.mpr hr1) hp0]
  · rw [hs]
    nlinarith [mul_nonneg (sub_nonneg.mpr hr1) (sub_nonneg.mpr hp1)]
  · simp only [schlick]
    ring

theorem schlick_probability_witness :
    ((0 : ℚ) ≤ 1.5 ∧ (0 : ℚ) ≤ 1 / 2 ∧ (1 / 2 : ℚ) ≤ 1) ∧
      0 ≤ ((1 - 1.5) / (1 + 1.5) : ℚ) ^ 2 ∧
      ((1 - 1.5) / (1 + 1.5) : ℚ) ^ 2 ≤ schlick (1 / 2) 1.5 ∧
      schlick (1 / 2) 1.5 ≤ 1 ∧
      schlick 0 1.5 = 1 :=
  ⟨by norm_num, schlick_probability (1 / 2) 1.5 (by norm_num) (by norm_num) (by norm_num)⟩

end claims_schlick

/-! ## The claims on the render driver -/

section observed_driver

variable {σ M : Type} (cfg : config) (L : library σ M) (cam : camera σ)
  (world : hittable σ M)

/-- One pass through the body of the sample loop on the observed scene computes
what the pass on the scene itself computes; it draws two random numbers, asks the
camera for the ray through the rounded `u = (i + x1) / image_width` and
`v = (j + x2) / image_height`, and then only tests hits and scatters. -/
theorem spy_sample (i j : Int) (s : σ) (log : List event) :
    ∃ evs : List event,
      sample cfg (spy_library L) (spy_camera cam) (spy_world world) i j (s, log) =
        ((sample cfg L cam world i j s).1, ((sample cfg L cam world i j s).2,
          log ++ [event.random_double (L.random_double s).1,
            event.random_double (L.random_double (L.random_double s).2).1,
            event.get_ray
              (round_double (round_double ((i : ℚ) + (L.random_double s).1)
                / (cfg.image_width : ℚ)))
              (round_double
                (round_double ((j : ℚ) + (L.random_double (L.random_double s).2).1)
                / (cfg.image_height : ℚ)))] ++ evs))
      ∧ ∀ e ∈ evs, e.is_hit = true ∨ e.is_scatter = true := by
  simp only [sample, spy_library, spy_camera]
  obtain ⟨evs, he, _, _, hall⟩ := spy_ray_color L world cfg.max_depth.toNat
    (cam.get_ray
      (round_double (round_double ((i : ℚ) + (L.random_double s).1)
        / (cfg.image_width : ℚ)))
      (round_double (round_double ((j : ℚ) + (L.random_double (L.random_double s).2).1)
        / (cfg.image_height : ℚ)))
      (L.random_double (L.random_double s).2).2).1
    cfg.max_depth
    (cam.get_ray
      (round_double (round_double ((i : ℚ) + (L.random_double s).1)
        / (cfg.image_width : ℚ)))
      (round_double (round_double ((j : ℚ) + (L.random_double (L.random_double s).2).1)
        / (cfg.image_height : ℚ)))
      (L.random_double (L.random_double s).2).2).2
    (log ++ [event.random_double (L.random_double s).1]
      ++ [event.random_double (L.random_double (L.random_double s).2).1]
      ++ [event.get_ray
        (round_double (round_double ((i : ℚ) + (L.random_double s).1)
          / (cfg.image_width : ℚ)))
        (round_double (round_double ((j : ℚ) + (L.random_double (L.random_double s).2).1)
          / (cfg.image_height : ℚ)))])
    le_rfl
  refine ⟨evs, ?_, hall⟩
  simp only [spy_library] at he
  simp only [he]
  simp

/-- The sample loop on the observed scene computes what the loop on the scene
itself computes. -/
theorem spy_sample_loop (i j : Int) (n : Nat) :
    ∀ (k : Int) (color : vec3) (s : σ) (log : List event),
      (cfg.samples_per_pixel - k).toNat = n →
      ∃ log' : List event,
        sample_loop cfg (spy_library L) (spy_camera cam) (spy_world world) i j k color
            (s, log) =
          ((sample_loop cfg L cam world i j k color s).1,
            ((sample_loop cfg L cam world i j k color s).2, log')) := by
  induction n with
  | zero =>
    intro k color s log hn
    have h : ¬ k < cfg.samples_per_pixel := by omega
    exact ⟨log, by rw [sample_loop_done _ _ _ _ _ _ _ _ _ h,
      sample_loop_done _ _ _ _ _ _ _ _ _ h]⟩
  | succ n ih =>
    intro k color s log hn
    have h : k < cfg.samples_per_pixel := by omega
    obtain ⟨evs, he, _⟩ := spy_sample cfg L cam world i j s log
    rw [sample_loop_step _ _ _ _ _ _ _ _ _ h, sample_loop_step _ _ _ _ _ _ _ _ _ h, he]
    exact ih (k + 1) _ _ _ (by omega)

/-- The column loop on the observed scene writes what the loop on the scene itself
writes. -/
theorem spy_column_loop (j : Int) (n : Nat) :
    ∀ (i : Int) (out : List output) (s : σ) (log : List event),
      (cfg.image_width - i).toNat = n →
      ∃ log' : List event,
        column_loop cfg (spy_library L) (spy_camera cam) (spy_world world) j i out (s, log) =
          ((column_loop cfg L cam world j i out s).1,
            ((column_loop cfg L cam world j i out s).2, log')) := by
  induction n with
  | zero =>
    intro i out s log hn
    have h : ¬ i < cfg.image_width := by omega
    exact ⟨log, by rw [column_loop_done _ _ _ _ _ _ _ _ h,
      column_loop_done _ _ _ _ _ _ _ _ h]⟩
  | succ n ih =>
    intro i out s log hn
    have h : i < cfg.image_width := by omega
    obtain ⟨log1, he⟩ := spy_sample_loop cfg L cam world i j _ 0 ⟨0, 0, 0⟩ s log rfl
    rw [column_loop_step _ _ _ _ _ _ _ _ h, column_loop_step _ _ _ _ _ _ _ _ h, he]
    exact ih (i + 1) _ _ _ (by omega)

/-- The row loop on the observed scene writes what the loop on the scene itself
writes. -/
theorem spy_row_loop (n : Nat) :
    ∀ (j : Int) (out : List output) (s : σ) (log : List event), (j + 1).toNat = n →
      ∃ log' : List event,
        row_loop cfg (spy_library L) (spy_camera cam) (spy_world world) j out (s, log) =
          ((row_loop cfg L cam world j out s).1,
            ((row_loop cfg L cam world j out s).2, log')) := by
  induction n with
  | zero =>
    intro j out s log hn
    have h : ¬ j ≥ 0 := by omega
    exact ⟨log, by rw [row_loop_done _ _ _ _ _ _ _ h, row_loop_done _ _ _ _ _ _ _ h]⟩
  | succ n ih =>
    intro j out s log hn
    have h : j ≥ 0 := by omega
    obtain ⟨log1, he⟩ := spy_column_loop cfg L cam world j _ 0 out s log rfl
    rw [row_loop_step _ _ _ _ _ _ _ h, row_loop_step _ _ _ _ _ _ _ h, he]
    exact ih (j - 1) _ _ _ (by omega)

/-- A run of the loops on the observed scene writes the output and leaves the
state that the run on the scene itself does. -/
theorem spy_render (s : σ) (log : List event) :
    (render cfg (spy_library L) (spy_camera cam) (spy_world world) (s, log)).1 =
        (render cfg L cam world s).1 ∧
      (render cfg (spy_library L) (spy_camera cam) (spy_world world) (s, log)).2.1 =
        (render cfg L cam world s).2 := by
  obtain ⟨log', he⟩ := spy_row_loop cfg L cam world _ (wrap_int (cfg.image_height - 1))
    [output.header cfg.image_width cfg.image_height] s log rfl
  simp only [render, he, and_self]

/-- The log of calls only grows during the sample loop. -/
theorem spy_sample_loop_log (i j : Int) (e : event) (k : Int) (color : vec3)
    (sl : σ × List event) (he : e ∈ sl.2) :
    e ∈ (sample_loop cfg (spy_library L) (spy_camera cam) (spy_world world) i j k color
      sl).2.2 := by
  refine sample_loop_rule cfg (spy_library L) (spy_camera cam) (spy_world world) i j
    (fun _ _ sl => e ∈ sl.2) ?_ _ k color sl rfl he
  intro k' color' sl' _ hmem
  obtain ⟨s, log⟩ := sl'
  obtain ⟨evs, heq, _⟩ := spy_sample cfg L cam world i j s log
  rw [heq]
  simp only [List.mem_append]
  exact Or.inl (Or.inl hmem)

/-- The log of calls only grows during the column loop. -/
theorem spy_column_loop_log (j : Int) (e : event) (i : Int) (out : List output)
    (sl : σ × List event) (he : e ∈ sl.2) :
    e ∈ (column_loop cfg (spy_library L) (spy_camera cam) (spy_world world) j i out
      sl).2.2 := by
  refine column_loop_rule cfg (spy_library L) (spy_camera cam) (spy_world world) j
    (fun _ _ sl => e ∈ sl.2) ?_ _ i out sl rfl he
  intro i' out' sl' _ hmem
  exact spy_sample_loop_log cfg L cam world i' j e 0 ⟨0, 0, 0⟩ sl' hmem

/-- The log of calls only grows during the row loop. -/
theorem spy_row_loop_log (e : event) (j : Int) (out : List output)
    (sl : σ × List event) (he : e ∈ sl.2) :
    e ∈ (row_loop cfg (spy_library L) (spy_camera cam) (spy_world world) j out sl).2.2 := by
  refine row_loop_rule cfg (spy_library L) (spy_camera cam) (spy_world world)
    (fun _ _ sl => e ∈ sl.2) ?_ _ j out sl rfl he
  intro j' out' sl' _ hmem
  exact spy_column_loop_log cfg L cam world j' e 0 out' sl' hmem

/-- Every call of `get_ray` a run of the loops makes has both its arguments in
`[0, 1]`, when the width and the height are values of type `int`,
`image_height - 1` does not overflow and every random draw lies in `[0, 1)`. -/
theorem render_get_ray_range
    (hrd : ∀ s, 0 ≤ (L.random_double s).1 ∧ (L.random_double s).1 < 1)
    (hw : cfg.image_width ≤ 2147483647) (hh : cfg.image_height ≤ 2147483647)
    (hno : wrap_int (cfg.image_height - 1) = cfg.image_height - 1) (st : σ) :
    ∀ u v : ℚ,
      event.get_ray u v ∈
        (render cfg (spy_library L) (spy_camera cam) (spy_world world) (st, [])).2.2 →
      (0 ≤ u ∧ u ≤ 1) ∧ (0 ≤ v ∧ v ≤ 1) := by
  refine render_rule cfg (spy_library L) (spy_camera cam) (spy_world world)
    (fun _ sl => ∀ u v : ℚ, event.get_ray u v ∈ sl.2 → (0 ≤ u ∧ u ≤ 1) ∧ (0 ≤ v ∧ v ≤ 1))
    ?_ hno (st, []) ?_
  · intro i j out sl hi0 hiw hj0 hjh hinv
    refine sample_loop_rule cfg (spy_library L) (spy_camera cam) (spy_world world) i j
      (fun _ _ sl => ∀ u v : ℚ, event.get_ray u v ∈ sl.2 →
        (0 ≤ u ∧ u ≤ 1) ∧ (0 ≤ v ∧ v ≤ 1))
      ?_ _ 0 ⟨0, 0, 0⟩ sl rfl hinv
    intro k color sl' _ hinv' u v hmem
    obtain ⟨s, log⟩ := sl'
    obtain ⟨evs, he, hall⟩ := spy_sample cfg L cam world i j s log
    rw [he] at hmem
    simp only [List.mem_append, List.mem_cons, List.mem_singleton, event.get_ray.injEq,
      List.not_mem_nil, or_false] at hmem
    rcases hmem with (hmem | h1 | h2 | ⟨rfl, rfl⟩) | hmem
    · exact hinv' u v hmem
    · cases h1
    · cases h2
    · exact ⟨sample_coordinate_range i _ _ hi0 hiw hw (hrd _).1 (hrd _).2,
        sample_coordinate_range j _ _ hj0 hjh hh (hrd _).1 (hrd _).2⟩
    · have := hall _ hmem
      simp [event.is_hit, event.is_scatter] at this
  · intro u v hmem
    simp at hmem

/-- The first call of `get_ray` that `main` makes is for the pixel `(0, 399)`. -/
theorem main_first_get_ray (st : σ) :
    event.get_ray
        (round_double (round_double (0 + (L.random_double st).1) / 800))
        (round_double
          (round_double (399 + (L.random_double (L.random_double st).2).1) / 400)) ∈
      (main (spy_library L) (spy_camera cam) (spy_world world) (st, [])).2.2 := by
  unfold main render
  rw [main_no_overflow,
    row_loop_step _ _ _ _ _ _ _ (show main_config.image_height - 1 ≥ 0 by decide)]
  apply spy_row_loop_log
  rw [column_loop_step _ _ _ _ _ _ _ _ (show (0 : Int) < main_config.image_width by decide)]
  apply spy_column_loop_log
  rw [sample_loop_step _ _ _ _ _ _ _ _ _
    (show (0 : Int) < main_config.samples_per_pixel by decide)]
  apply spy_sample_loop_log
  obtain ⟨evs, he, _⟩ := spy_sample main_config L cam world 0
    (main_config.image_height - 1) st []
  rw [he]
  simp [main_config]

end observed_driver

section demo_driver

theorem edge_random_double_range (s : Nat) :
    0 ≤ (edge_library.random_double s).1 ∧ (edge_library.random_double s).1 < 1 := by
  simp only [edge_library]
  norm_num

end demo_driver

section claims_driver

/-- C8: `main` writes the header and then one pixel per call of `write_color`, in
row-major order with the rows from the last scanline to the first: the pixels
`(i, j)` the calls are made for are, in this order, `j = 399` down to `0` and, in
each row, `i = 0` up to `799`.  There are 320000 calls, no pixel is written twice and every pixel of the
800 x 400 image is written, so each exactly once.  Each call is made with
`samples_per_pixel = 100` on the sum, accumulated from black, of the colours of
exactly 100 successive samples of its pixel, each of them a value of `ray_color`
at depth `max_depth = 50` on a ray the camera returns. -/
theorem main_pixel_order {σ M : Type} (L : library σ M) (cam : camera σ)
    (world : hittable σ M) (st : σ) :
    (main L cam world st).1.head? = some (output.header 800 400) ∧
      (main L cam world st).1.map output.pixel = none :: (scan_order 800 400).map some ∧
      scan_order 800 400 =
        (List.range 400).reverse.flatMap
          (fun (j : Nat) => (List.range 800).map (fun (i : Nat) => ((i : Int), (j : Int)))) ∧
      ((main L cam world st).1.filterMap output.pixel).length = 320000 ∧
      ((main L cam world st).1.filterMap output.pixel).Nodup ∧
      (∀ i j : Nat, i < 800 → j < 400 →
        ((i : Int), (j : Int)) ∈ (main L cam world st).1.filterMap output.pixel) ∧
      (∀ (i j : Int) (c : vec3) (n : Int),
        output.write_color i j c n ∈ (main L cam world st).1 →
        n = 100 ∧
        ∃ st0 : σ,
          c = (pixel_samples main_config L cam world i j 100 st0).1.foldl
            (fun a b => a + b) ⟨0, 0, 0⟩ ∧
          (pixel_samples main_config L cam world i j 100 st0).1.length = 100 ∧
          ∀ x ∈ (pixel_samples main_config L cam world i j 100 st0).1,
            ∃ (u v : ℚ) (s0 : σ),
              x = (ray_color L (cam.get_ray u v s0).1 world 50 (cam.get_ray u v s0).2).1) := by
  have hfm : (main L cam world st).1.filterMap output.pixel = scan_order 800 400 :=
    render_filterMap_pixel main_config L cam world 800 400 rfl rfl main_no_overflow st
  refine ⟨render_head main_config L cam world main_no_overflow st,
    render_pixels main_config L cam world 800 400 rfl rfl main_no_overflow st,
    rfl, ?_, ?_, ?_, ?_⟩
  · rw [hfm, scan_order_length]
  · rw [hfm]
    exact scan_order_nodup 800 400
  · intro i j hi hj
    rw [hfm]
    exact mem_scan_order 800 400 i j hi hj
  · intro i j c n hmem
    obtain ⟨hn, st0, hc⟩ :=
      render_colors main_config L cam world main_no_overflow st i j c n hmem
    exact ⟨hn, st0, hc, pixel_samples_length main_config L cam world i j 100 st0,
      pixel_samples_mem main_config L cam world i j 100 st0⟩

theorem main_pixel_order_witness :
    ((0 : Nat) < 800 ∧ (399 : Nat) < 400) ∧
      (((0 : Nat) : Int), ((399 : Nat) : Int)) ∈
        (main demo_library demo_camera demo_world 0).1.filterMap output.pixel :=
  ⟨by decide,
    (main_pixel_order demo_library demo_camera demo_world 0).2.2.2.2.2.1 0 399
      (by decide) (by decide)⟩

/-- C9, as the code has it: the render driver satisfies the precondition of the
camera, which is the closed interval.  If every value of `random_double` lies in
`[0, 1)`, then both arguments `u = (i + random_double()) / image_width` and
`v = (j + random_double()) / image_height` of every call of `get_ray` that `main`
makes lie in `[0, 1]`; the observed run of `main` writes the output of the run
itself. -/
theorem get_ray_precondition {σ M : Type} (L : library σ M) (cam : camera σ)
    (world : hittable σ M)
    (hrd : ∀ s, 0 ≤ (L.random_double s).1 ∧ (L.random_double s).1 < 1) :
    (∀ (st : σ) (u v : ℚ),
        event.get_ray u v ∈
          (main (spy_library L) (spy_camera cam) (spy_world world) (st, [])).2.2 →
        (0 ≤ u ∧ u ≤ 1) ∧ (0 ≤ v ∧ v ≤ 1)) ∧
      (∀ st : σ,
        (main (spy_library L) (spy_camera cam) (spy_world world) (st, [])).1 =
          (main L cam world st).1) :=
  ⟨fun st => render_get_ray_range main_config L cam world hrd (by decide) (by decide)
      main_no_overflow st,
    fun st => (spy_render main_config L cam world st []).1⟩

theorem get_ray_precondition_witness :
    (∀ s, 0 ≤ (demo_library.random_double s).1 ∧ (demo_library.random_double s).1 < 1) ∧
      event.get_ray
          (round_double (round_double (0 + (demo_library.random_double 0).1) / 800))
          (round_double (round_double
            (399 + (demo_library.random_double (demo_library.random_double 0).2).1) / 400)) ∈
        (main (spy_library demo_library) (spy_camera demo_camera) (spy_world demo_world)
          (0, [])).2.2 ∧
      ((0 ≤ round_double (round_double (0 + (demo_library.random_double 0).1) / 800) ∧
          round_double (round_double (0 + (demo_library.random_double 0).1) / 800) ≤ 1) ∧
        (0 ≤ round_double (round_double
            (399 + (demo_library.random_double (demo_library.random_double 0).2).1) / 400) ∧
          round_double (round_double
            (399 + (demo_library.random_double (demo_library.random_double 0).2).1) / 400)
            ≤ 1)) :=
  ⟨demo_random_double_range, main_first_get_ray demo_library demo_camera demo_world 0,
    (get_ray_precondition demo_library demo_camera demo_world
      demo_random_double_range).1 0 _ _
      (main_first_get_ray demo_library demo_camera demo_world 0)⟩

/-- C9 as stated fails: the half-open interval is not kept.  With a generator that
draws `1 - 2^(-53)`, a double in `[0, 1)`, the first call of `get_ray` that `main`
makes, for the pixel `(0, 399)`, has `v = 1`: the sum `399 + (1 - 2^(-53))` rounds
to 400, and 400 / 400 is 1, which is not below 1.  In the same way
`(799 + (1 - 2^(-53))) / 800` is computed as 1 for the last column. -/
theorem get_ray_argument_reaches_one :
    (∀ s, 0 ≤ (edge_library.random_double s).1 ∧ (edge_library.random_double s).1 < 1) ∧
      event.get_ray (round_double (round_double (0 + (1 - 1 / 2 ^ 53)) / 800)) 1 ∈
        (main (spy_library edge_library) (spy_camera demo_camera) (spy_world demo_world)
          (0, [])).2.2 ∧
      ¬ ((1 : ℚ) < 1) ∧
      round_double (round_double (399 + (1 - 1 / 2 ^ 53)) / 400) = 1 ∧
      round_double (round_double (799 + (1 - 1 / 2 ^ 53)) / 800) = 1 := by
  have hv : round_double (round_double (399 + (1 - 1 / 2 ^ 53)) / 400) = 1 := by
    rw [round_double_399]
    norm_num [round_double_one]
  have hu : round_double (round_double (799 + (1 - 1 / 2 ^ 53)) / 800) = 1 := by
    rw [round_double_799]
    norm_num [round_double_one]
  refine ⟨edge_random_double_range, ?_, lt_irrefl 1, hv, hu⟩
  have h := main_first_get_ray edge_library demo_camera demo_world 0
  simp only [edge_library] at h
  rw [hv] at h
  exact h

end claims_driver

end RayTracing
